import Mathlib

/-
Verification of the FishPass stream-network passage model (FishPass.py).

The source is a Python module with three functions:
  * find_main_stems : per-tributary search for main-stem reaches,
  * find_origins    : scan of the from-to table for tributary entry points,
  * fish_passage    : per-origin upstream worklist traversal applying dam
    attenuation and proportional splitting at confluences.

The embedding below mirrors the Python code statement by statement:
  * pandas dataframes become lists of tuples (only the columns the code
    reads are kept, in the same order);
  * Python floats become rationals;
  * the Python dict o_dict becomes an association list with Python's
    update-in-place / append-at-end / delete semantics;
  * the for-loop over a list that is mutated while being iterated
    (o_up_ids, not_term_list) becomes an explicit index-driven loop;
  * runtime exceptions (KeyError, TypeError on None arithmetic or on
    str+int concatenation, IndexError on .values[0] of an empty
    selection) become explicit error values;
  * sys.exit on validation failure becomes an invalid-input error value;
  * unbounded loops take a fuel parameter; running out of fuel is
    reported as a distinct outcome, never as a result.

A ghost field hist on the traversal state records every id ever appended
to the worklist; it changes no behaviour and is used to state the
"no reach enqueued twice" side conditions.
-/

namespace FishPass

variable {R : Type} [DecidableEq R] {T : Type} [DecidableEq T]

/-- Deduplication keeping the first occurrence of each element, in order of
first appearance (the order pandas.unique uses; Python's list(set(...)) has
unspecified order, so claims about deduplicated outputs are set-level). -/
def uniqueAux (seen : List R) : List R → List R
  | [] => []
  | x :: xs => if x ∈ seen then uniqueAux seen xs else x :: uniqueAux (x :: seen) xs

/-- Number of dam rows for a reach: len(dd[dd.iloc[:,0] == r]). -/
def damCt (dd : List (R × ℤ)) (r : R) : ℕ :=
  (dd.filter (fun row => decide (row.1 = r))).length

/-- Upstream neighbours of a reach: ft[ft.iloc[:,1] == o].iloc[:,0],
in table order. -/
def upstreamOf (ft : List (R × R)) (o : R) : List R :=
  (ft.filter (fun e => decide (e.2 = o))).map (fun e => e.1)

/-- The sa argument of fish_passage: either a Python string (the code only
lets the sentinel "NONE" through validation) or a stream-attribute table
with reach id in the first column and the attribute value in the second. -/
inductive StreamAttr (R : Type) where
  | strval (s : String)
  | table (rows : List (R × ℚ))
  deriving DecidableEq

/-- len(sa): length of the string, or number of table rows. -/
def saLen : StreamAttr R → ℕ
  | StreamAttr.strval s => s.length
  | StreamAttr.table rows => rows.length

/-- sa[sa.iloc[:,0] == r].iloc[:,1].values[0]: the attribute value of the
first matching row; none models the IndexError on an empty selection. -/
def attrLookup (rows : List (R × ℚ)) (r : R) : Option ℚ :=
  ((rows.filter (fun p => decide (p.1 = r))).map (fun p => p.2)).head?

/-- The attrs-collection loop of the confluence branch: one lookup per
upstream reach, aborting at the first missing reach. -/
def lookupAll (rows : List (R × ℚ)) : List R → Option (List ℚ)
  | [] => some []
  | r :: rest =>
    match attrLookup rows r, lookupAll rows rest with
    | some v, some vs => some (v :: vs)
    | _, _ => none

/-- The proportions computed at a confluence with upstream reaches q:
all 1 when sa is a string (the "NONE" case), otherwise each attribute
value divided by the sum of the attribute values of the branches. -/
def confluenceProps (sa : StreamAttr R) (q : List R) : Option (List ℚ) :=
  match sa with
  | StreamAttr.strval _ => some (q.map (fun _ => (1 : ℚ)))
  | StreamAttr.table rows =>
    match lookupAll rows q with
    | none => none
    | some attrs => some (attrs.map (fun v => v / attrs.sum))

/-- Python runtime exceptions that the traversal can raise. -/
inductive PErr where
  | keyError
  | typeError
  | indexError
  deriving DecidableEq

/-- o_dict as an association list: Python dict assignment updates the
existing key in place, else appends at the end. -/
def dictSet : List (R × Option ℚ) → R → Option ℚ → List (R × Option ℚ)
  | [], k, v => [(k, v)]
  | kv :: rest, k, v => if kv.1 = k then (k, v) :: rest else kv :: dictSet rest k v

/-- o_dict[k]: none models a KeyError; some none models a key whose stored
value is Python's None. -/
def dictGet : List (R × Option ℚ) → R → Option (Option ℚ)
  | [], _ => none
  | kv :: rest, k => if kv.1 = k then some kv.2 else dictGet rest k

/-- del o_dict[k]: removes the first entry with the given key. -/
def dictDel : List (R × Option ℚ) → R → List (R × Option ℚ)
  | [], _ => []
  | kv :: rest, k => if kv.1 = k then rest else kv :: dictDel rest k

def dictKeys (d : List (R × Option ℚ)) : List R := d.map (fun kv => kv.1)

/-- list.remove(k): removes the first occurrence of k. -/
def removeFirst : List R → R → List R
  | [], _ => []
  | x :: xs, k => if x = k then xs else x :: removeFirst xs k

/-- Per-origin traversal state: o_up_ids, the Python for-loop's internal
index into it, o_dict, and the ghost history of all appends. -/
structure OState (R : Type) where
  ids : List R
  idx : ℕ
  dict : List (R × Option ℚ)
  hist : List R
  deriving DecidableEq

/-- The fraction stored for the origin before the traversal starts:
100 · red^k when the origin has k > 0 dam rows, else the full 100. -/
def initFrac (dd : List (R × ℤ)) (red : ℚ) (origin : R) : ℚ :=
  if 0 < damCt dd origin then 100 * red ^ damCt dd origin else 100

/-- Lines 249-275: seed o_up_ids = [origin] and o_dict = {origin: None},
then overwrite the origin's value with the attenuated population. -/
def initOState (dd : List (R × ℤ)) (red : ℚ) (origin : R) : OState R :=
  let d0 : List (R × Option ℚ) := [(origin, none)]
  let d1 :=
    if 0 < damCt dd origin then
      dictSet d0 origin (some (100 * red ^ damCt dd origin))
    else
      dictSet d0 origin (some (100 : ℚ))
  ⟨[origin], 0, d1, [origin]⟩

/-- Lines 287-308, the single-upstream-reach branch for current reach o and
upstream reach u: append u, set its entry to None, then either attenuate
over u's dams with the strict cutoff test, or (with no dams) copy the
current reach's value without any cutoff test. -/
def singleStep (dd : List (R × ℤ)) (red cutoff : ℚ) (o u : R) (st : OState R) :
    OState R × Option PErr :=
  let ids1 := st.ids ++ [u]
  let d1 := dictSet st.dict u none
  let h1 := st.hist ++ [u]
  if 0 < damCt dd u then
    match dictGet d1 o with
    | none => (⟨ids1, st.idx, d1, h1⟩, some PErr.keyError)
    | some none => (⟨ids1, st.idx, d1, h1⟩, some PErr.typeError)
    | some (some f) =>
      let red_pop := f * red ^ damCt dd u
      if cutoff < red_pop then
        (⟨ids1, st.idx, dictSet d1 u (some red_pop), h1⟩, none)
      else
        (⟨removeFirst ids1 u, st.idx, dictDel d1 u, h1⟩, none)
  else
    match dictGet d1 o with
    | none => (⟨ids1, st.idx, d1, h1⟩, some PErr.keyError)
    | some v => (⟨ids1, st.idx, dictSet d1 u v, h1⟩, none)

/-- Lines 341-370, one iteration of the confluence zip loop for branch k
with proportion p: append k, set its entry to None, then attenuate the
split share over k's dams, recording it only above the cutoff. -/
def confStep (dd : List (R × ℤ)) (red cutoff : ℚ) (o : R) (st : OState R)
    (kp : R × ℚ) : OState R × Option PErr :=
  let k := kp.1
  let p := kp.2
  let ids1 := st.ids ++ [k]
  let d1 := dictSet st.dict k none
  let h1 := st.hist ++ [k]
  if 0 < damCt dd k then
    match dictGet d1 o with
    | none => (⟨ids1, st.idx, d1, h1⟩, some PErr.keyError)
    | some none => (⟨ids1, st.idx, d1, h1⟩, some PErr.typeError)
    | some (some f) =>
      let red_pop := (f * p) * red ^ damCt dd k
      if cutoff < red_pop then
        (⟨ids1, st.idx, dictSet d1 k (some red_pop), h1⟩, none)
      else
        (⟨removeFirst ids1 k, st.idx, dictDel d1 k, h1⟩, none)
  else
    match dictGet d1 o with
    | none => (⟨ids1, st.idx, d1, h1⟩, some PErr.keyError)
    | some none => (⟨ids1, st.idx, d1, h1⟩, some PErr.typeError)
    | some (some f) =>
      let red_pop := f * p
      if cutoff < red_pop then
        (⟨ids1, st.idx, dictSet d1 k (some red_pop), h1⟩, none)
      else
        (⟨removeFirst ids1 k, st.idx, dictDel d1 k, h1⟩, none)

/-- The for k, p in zip(ids, props) loop, stopping at the first exception. -/
def confLoop (dd : List (R × ℤ)) (red cutoff : ℚ) (o : R) :
    List (R × ℚ) → OState R → OState R × Option PErr
  | [], st => (st, none)
  | kp :: rest, st =>
    match confStep dd red cutoff o st kp with
    | (st1, none) => confLoop dd red cutoff o rest st1
    | (st1, some e) => (st1, some e)

/-- One iteration of the for o in o_up_ids loop body for current reach o:
query the upstream reaches and dispatch on their number; on success the
loop's internal index moves to the next position. -/
def step (dd : List (R × ℤ)) (ft : List (R × R)) (sa : StreamAttr R)
    (red cutoff : ℚ) (o : R) (st : OState R) : OState R × Option PErr :=
  match upstreamOf ft o with
  | [] => (⟨st.ids, st.idx + 1, st.dict, st.hist⟩, none)
  | [u] =>
    match singleStep dd red cutoff o u st with
    | (st1, none) => (⟨st1.ids, st1.idx + 1, st1.dict, st1.hist⟩, none)
    | (st1, some e) => (st1, some e)
  | q =>
    match confluenceProps sa q with
    | none => (st, some PErr.indexError)
    | some props =>
      match confLoop dd red cutoff o (q.zip props) st with
      | (st1, none) => (⟨st1.ids, st1.idx + 1, st1.dict, st1.hist⟩, none)
      | (st1, some e) => (st1, some e)

/-- Outcome of one origin's traversal. -/
inductive ROut (R : Type) where
  | ok (dict : List (R × Option ℚ))
  | err (e : PErr)
  | fuelOut
  deriving DecidableEq

/-- The for o in o_up_ids loop: Python's list iterator walks by index and
sees appends made during iteration; the loop ends when the index runs past
the (current) end of the list. The final state is returned alongside the
outcome so that side conditions about the whole run can be stated. -/
def runO (dd : List (R × ℤ)) (ft : List (R × R)) (sa : StreamAttr R)
    (red cutoff : ℚ) : ℕ → OState R → ROut R × OState R
  | 0, st => (ROut.fuelOut, st)
  | n + 1, st =>
    match st.ids[st.idx]? with
    | none => (ROut.ok st.dict, st)
    | some o =>
      match step dd ft sa red cutoff o st with
      | (st1, none) => runO dd ft sa red cutoff n st1
      | (st1, some e) => (ROut.err e, st1)

/-- Lines 93-100 of find_main_stems: the for n in not_term_list loop, which
appends downstream ids to the very list being iterated. wl is the list,
idx the iterator's index, acc the main_stem_reaches accumulator. The
first ft_sub row whose "from" column is n supplies the downstream id; an
empty selection is the IndexError of .iloc[0, 1]. -/
def msLoop (ft_sub : List (R × R)) (reaches : List R) :
    ℕ → List R → ℕ → List R → Except String (List R)
  | 0, _, _, _ => Except.error "fuel exhausted"
  | n + 1, wl, idx, acc =>
    match wl[idx]? with
    | none => Except.ok acc
    | some nn =>
      match (ft_sub.filter (fun e => decide (e.1 = nn))).head? with
      | none => Except.error "IndexError"
      | some e =>
        if e.2 ∈ reaches then
          msLoop ft_sub reaches n (wl ++ [e.2]) (idx + 1) (acc ++ [nn])
        else
          msLoop ft_sub reaches n wl (idx + 1) (acc ++ [nn] ++ [e.2])

/-- The body of the for trib in tribs loop of find_main_stems, returning
the new value of the accumulator all_main_stem_reaches. Mirrors the
source exactly, including line 108, where a tributary with no non-terminal
reach assigns a fresh empty list to the accumulator. -/
def processTrib (tr : List (T × R)) (ft : List (R × R)) (fuel : ℕ)
    (acc : List R) (trib : T) : Except String (List R) :=
  let reaches := (tr.filter (fun p => decide (p.1 = trib))).map (fun p => p.2)
  let ft_sub := reaches.flatMap (fun r => ft.filter (fun e => decide (e.1 = r) || decide (e.2 = r)))
  let not_term := (ft_sub.map (fun e => e.1)).filter (fun i => decide (i ∉ reaches))
  if 0 < not_term.length then
    match msLoop ft_sub reaches fuel not_term 0 [] with
    | Except.error e => Except.error e
    | Except.ok ms => Except.ok (acc ++ ms)
  else
    Except.ok []

def foldTribs (tr : List (T × R)) (ft : List (R × R)) (fuel : ℕ) :
    List R → List T → Except String (List R)
  | acc, [] => Except.ok acc
  | acc, trib :: rest =>
    match processTrib tr ft fuel acc trib with
    | Except.error e => Except.error e
    | Except.ok acc1 => foldTribs tr ft fuel acc1 rest

/-- Lines 26-116: find_main_stems(tr, ft). tr holds (tributary id, reach id)
rows, ft holds (from, to) rows; sys.exit on an empty input becomes an
error value, and the final list(set(...)) becomes first-occurrence
deduplication. -/
def find_main_stems (tr : List (T × R)) (ft : List (R × R)) (fuel : ℕ) :
    Except String (List R) :=
  if tr.length = 0 ∨ ft.length = 0 then
    Except.error "At least one input has length zero...check input tables and lists...check inputs"
  else
    match foldTribs tr ft fuel [] (uniqueAux [] (tr.map (fun p => p.1))) with
    | Except.error e => Except.error e
    | Except.ok all => Except.ok (uniqueAux [] all)

/-- Lines 121-171: find_origins(ms, ft). For each (from, to) row with
to ∈ ms and from ∉ ms, from is an origin; the result is deduplicated. -/
def find_origins (ms : List R) (ft : List (R × R)) : Except String (List R) :=
  if ms.length = 0 ∨ ft.length = 0 then
    Except.error "At least one input has length zero...check input tables and lists...check inputs"
  else
    Except.ok (uniqueAux []
      ((ft.filter (fun r => decide (r.2 ∈ ms) && decide (r.1 ∉ ms))).map (fun r => r.1)))

instance {ε α : Type} [DecidableEq ε] [DecidableEq α] : DecidableEq (Except ε α) := fun x y =>
  match x, y with
  | Except.ok a, Except.ok b =>
    if h : a = b then isTrue (by rw [h]) else isFalse (by intro hh; injection hh; exact h (by assumption))
  | Except.error a, Except.error b =>
    if h : a = b then isTrue (by rw [h]) else isFalse (by intro hh; injection hh; exact h (by assumption))
  | Except.ok _, Except.error _ => isFalse (fun hh => Except.noConfusion hh)
  | Except.error _, Except.ok _ => isFalse (fun hh => Except.noConfusion hh)

/-- Reach identifiers are opaque unique labels; the data may carry either
strings or integers, so the top-level model fixes the id type to their sum. -/
abbrev RId := String ⊕ ℤ

/-- Errors of the whole fish_passage call: a sys.exit with its message, a
Python exception escaping the traversal, or fuel exhaustion of the model. -/
inductive FPErr where
  | invalidInput (msg : String)
  | runtime (e : PErr)
  | fuelOut
  deriving DecidableEq

/-- Line 247: print("Analyzing fish passage upstream of " + origin + ".......").
String concatenation with a non-string raises TypeError, so an integer
origin id aborts the call before its traversal starts. -/
def progressMessage : RId → Option String
  | Sum.inl s => some ("Analyzing fish passage upstream of " ++ s ++ ".......")
  | Sum.inr _ => none

/-- The for origin in ori loop of fish_passage: per origin, the progress
message is built first, then the traversal runs; any exception aborts the
whole call with no partial results. -/
def runOrigins (dd : List (RId × ℤ)) (ft : List (RId × RId)) (sa : StreamAttr RId)
    (red cutoff : ℚ) (fuel : ℕ) :
    List RId → Except FPErr (List (RId × List (RId × Option ℚ)))
  | [] => Except.ok []
  | o :: rest =>
    match progressMessage o with
    | none => Except.error (FPErr.runtime PErr.typeError)
    | some _ =>
      match runO dd ft sa red cutoff fuel (initOState dd red o) with
      | (ROut.ok d, _) =>
        match runOrigins dd ft sa red cutoff fuel rest with
        | Except.ok ds => Except.ok ((o, d) :: ds)
        | Except.error e => Except.error e
      | (ROut.err e, _) => Except.error (FPErr.runtime e)
      | (ROut.fuelOut, _) => Except.error FPErr.fuelOut

/-- Lines 218-237 and the model run: the dataframe/list type checks cannot
fail in a typed embedding; the emptiness and range checks are the source's,
in the source's order. -/
def fishChecks (dd : List (RId × ℤ)) (ori : List RId) (ft : List (RId × RId))
    (pct_pass pct_cutoff : ℤ) (sa : StreamAttr RId) (fuel : ℕ) :
    Except FPErr (List (RId × List (RId × Option ℚ))) :=
  if dd.length = 0 ∨ ori.length = 0 ∨ ft.length = 0 ∨ saLen sa = 0 then
    Except.error (FPErr.invalidInput
      "At least one input has length zero...check input tables and lists...check inputs")
  else if 100 < pct_pass ∨ pct_pass < 0 then
    Except.error (FPErr.invalidInput
      "Percent passing parameter must be an integer, with possible values of 0 to 100...check inputs")
  else if 100 < pct_cutoff ∨ pct_cutoff < 1 then
    Except.error (FPErr.invalidInput
      "Percent cutoff parameter must be an integer, with possible values of 1 to 100...check inputs")
  else
    runOrigins dd ft sa ((pct_pass : ℚ) / 100) (pct_cutoff : ℚ) fuel ori

/-- Lines 176-391: fish_passage(dd, ori, ft, pct_pass, pct_cutoff, sa).
The sa argument is checked first: a dataframe is accepted, a string other
than "NONE" is a sys.exit. The returned value keeps, per origin, the final
o_dict (the result dataframe rows, in insertion order). -/
def fish_passage (dd : List (RId × ℤ)) (ori : List RId) (ft : List (RId × RId))
    (pct_pass pct_cutoff : ℤ) (sa : StreamAttr RId) (fuel : ℕ) :
    Except FPErr (List (RId × List (RId × Option ℚ))) :=
  match sa with
  | StreamAttr.strval s =>
    if s = "NONE" then
      fishChecks dd ori ft pct_pass pct_cutoff (StreamAttr.strval s) fuel
    else
      Except.error (FPErr.invalidInput
        "Stream attribute input must be string NONE or a pandas dataframe...check inputs")
  | StreamAttr.table t =>
    fishChecks dd ori ft pct_pass pct_cutoff (StreamAttr.table t) fuel

/- ### Derived notions used by the claim statements -/

/-- Reachability in one or more upstream steps from a. -/
inductive UpR (ft : List (R × R)) (a : R) : R → Prop
  | base {r} : r ∈ upstreamOf ft a → UpR ft a r
  | step {x r} : UpR ft a x → r ∈ upstreamOf ft x → UpR ft a r

/-- All entries of a result dictionary hold numeric values strictly greater
than the cutoff (lookups by key; the key list stays duplicate-free). -/
def GoodDict (cutoff : ℚ) (d : List (R × Option ℚ)) : Prop :=
  (dictKeys d).Nodup ∧ ∀ k v, dictGet d k = some v → ∃ q : ℚ, v = some q ∧ cutoff < q

/-- Every entry of a result dictionary, looked up by key, is a numeric
fraction strictly greater than the cutoff. -/
def allAbove (cutoff : ℚ) (d : List (R × Option ℚ)) : Prop :=
  ∀ k v, dictGet d k = some v → ∃ q : ℚ, v = some q ∧ cutoff < q

/-- The reaches already dequeued and processed by the loop. -/
def takePart (st : OState R) : List R := st.ids.take st.idx

/-- Well-formedness kept by a run with no duplicate enqueue: every worklist
member was once appended, and every worklist member has a dictionary entry. -/
def WfState (st : OState R) : Prop :=
  (∀ r ∈ st.ids, r ∈ st.hist) ∧ (∀ r ∈ st.ids, dictGet st.dict r ≠ none)

/-- The input conditions C3 lists for fish_passage (wrong-type conditions
excepted, which a typed embedding cannot express): an empty table or list,
pct_pass outside [0, 100], pct_cutoff outside [1, 100], or a string
splitting attribute other than the "NONE" sentinel. -/
def listedInvalid (dd : List (RId × ℤ)) (ori : List RId) (ft : List (RId × RId))
    (pct_pass pct_cutoff : ℤ) (sa : StreamAttr RId) : Bool :=
  decide (dd.length = 0) || decide (ori.length = 0) || decide (ft.length = 0) ||
    decide (saLen sa = 0) ||
    decide (100 < pct_pass) || decide (pct_pass < 0) ||
    decide (100 < pct_cutoff) || decide (pct_cutoff < 1) ||
    (match sa with
     | StreamAttr.strval s => !(decide (s = "NONE"))
     | StreamAttr.table _ => false)

/-- Result sets of a fish_passage call: per origin, the (reach, fraction)
pairs as a multiset (the claim's notion of result equality). -/
def pairMultisets (r : Except FPErr (List (RId × List (RId × Option ℚ)))) :
    Except FPErr (List (RId × Multiset (RId × Option ℚ))) :=
  match r with
  | Except.ok l => Except.ok (l.map (fun od => (od.1, (od.2 : Multiset (RId × Option ℚ)))))
  | Except.error e => Except.error e


/- ### Basic lemmas about the dictionary and list operations -/

theorem dictGet_set (d : List (R × Option ℚ)) (k : R) (v : Option ℚ) (q : R) :
    dictGet (dictSet d k v) q = if q = k then some v else dictGet d q := by
  induction d with
  | nil =>
    simp only [dictSet, dictGet]
    by_cases h : q = k
    · rw [if_pos h.symm, if_pos h]
    · rw [if_neg (fun hh : k = q => h hh.symm), if_neg h]
  | cons kv rest ih =>
    simp only [dictSet]
    by_cases hk : kv.1 = k
    · rw [if_pos hk]
      simp only [dictGet]
      by_cases hq : q = k
      · rw [if_pos hq.symm, if_pos hq]
      · rw [if_neg (fun hh : k = q => hq hh.symm), if_neg hq,
          if_neg (fun hh : kv.1 = q => hq (hk.symm.trans hh).symm)]
    · rw [if_neg hk]
      simp only [dictGet]
      by_cases hq : kv.1 = q
      · have hqk : ¬ q = k := fun hh => hk (hq.trans hh)
        rw [if_pos hq, if_neg hqk, if_pos hq]
      · rw [if_neg hq, ih, if_neg hq]

theorem dictDel_set (d : List (R × Option ℚ)) (k : R) (v : Option ℚ) :
    dictDel (dictSet d k v) k = dictDel d k := by
  induction d with
  | nil => simp [dictSet, dictDel]
  | cons kv rest ih =>
    simp only [dictSet]
    by_cases hk : kv.1 = k
    · rw [if_pos hk]
      simp [dictDel, hk]
    · rw [if_neg hk]
      simp only [dictDel, if_neg hk, ih]

theorem dictGet_del_ne (d : List (R × Option ℚ)) (k q : R) (h : q ≠ k) :
    dictGet (dictDel d k) q = dictGet d q := by
  induction d with
  | nil => simp [dictDel]
  | cons kv rest ih =>
    simp only [dictDel]
    by_cases hk : kv.1 = k
    · rw [if_pos hk]
      simp only [dictGet]
      rw [if_neg (fun hh : kv.1 = q => h ((hh.symm.trans hk)))]
    · rw [if_neg hk]
      simp only [dictGet, ih]

theorem mem_dictKeys (d : List (R × Option ℚ)) (q : R) :
    q ∈ dictKeys d ↔ ∃ v, (q, v) ∈ d := by
  simp only [dictKeys, List.mem_map]
  constructor
  · rintro ⟨⟨a, b⟩, hm, he⟩
    exact ⟨b, by cases he; exact hm⟩
  · rintro ⟨v, hv⟩
    exact ⟨(q, v), hv, rfl⟩

theorem dictGet_notin (d : List (R × Option ℚ)) (k : R)
    (h : k ∉ dictKeys d) : dictGet d k = none := by
  induction d with
  | nil => rfl
  | cons kv rest ih =>
    have h1 : kv.1 ≠ k := fun hh => h (by rw [← hh]; exact List.mem_cons_self _ _)
    simp only [dictGet, if_neg h1]
    exact ih (fun hh => h (List.mem_cons_of_mem _ hh))

theorem dictKeys_del_sub (d : List (R × Option ℚ)) (k : R) :
    dictKeys (dictDel d k) ⊆ dictKeys d := by
  induction d with
  | nil => intro q hq; simpa [dictDel] using hq
  | cons kv rest ih =>
    intro q hq
    by_cases hk : kv.1 = k
    · simp only [dictDel, if_pos hk] at hq
      exact List.mem_cons_of_mem _ hq
    · simp only [dictDel, if_neg hk] at hq
      rcases List.mem_cons.mp hq with h1 | h1
      · rw [h1]; exact List.mem_cons_self _ _
      · exact List.mem_cons_of_mem _ (ih h1)

theorem dictGet_del_self (d : List (R × Option ℚ)) (k : R)
    (h : (dictKeys d).Nodup) : dictGet (dictDel d k) k = none := by
  induction d with
  | nil => rfl
  | cons kv rest ih =>
    simp only [dictKeys, List.map_cons, List.nodup_cons] at h
    simp only [dictDel]
    by_cases hk : kv.1 = k
    · rw [if_pos hk]
      exact dictGet_notin rest k (hk ▸ h.1)
    · rw [if_neg hk]
      simp only [dictGet, if_neg hk]
      exact ih h.2

theorem mem_keys_set (d : List (R × Option ℚ)) (k : R) (v : Option ℚ) (q : R) :
    q ∈ dictKeys (dictSet d k v) ↔ q ∈ dictKeys d ∨ q = k := by
  induction d with
  | nil => simp [dictSet, dictKeys]
  | cons kv rest ih =>
    simp only [dictSet]
    by_cases hk : kv.1 = k
    · rw [if_pos hk]
      simp [dictKeys, hk]
      tauto
    · rw [if_neg hk]
      simp only [dictKeys, List.map_cons, List.mem_cons] at ih ⊢
      rw [show (dictSet rest k v).map (fun kv => kv.1) = dictKeys (dictSet rest k v) from rfl] at *
      rw [show rest.map (fun kv => kv.1) = dictKeys rest from rfl] at *
      tauto

theorem keysNodup_set (d : List (R × Option ℚ)) (k : R) (v : Option ℚ)
    (h : (dictKeys d).Nodup) : (dictKeys (dictSet d k v)).Nodup := by
  induction d with
  | nil => simp [dictSet, dictKeys]
  | cons kv rest ih =>
    simp only [dictKeys, List.map_cons, List.nodup_cons] at h
    simp only [dictSet]
    by_cases hk : kv.1 = k
    · simp only [if_pos hk, dictKeys, List.map_cons, List.nodup_cons]
      exact ⟨hk ▸ h.1, h.2⟩
    · simp only [if_neg hk, dictKeys, List.map_cons, List.nodup_cons]
      refine ⟨fun hm => ?_, ih h.2⟩
      rcases (mem_keys_set rest k v kv.1).mp hm with hh | hh
      · exact h.1 hh
      · exact hk hh

theorem keysNodup_del (d : List (R × Option ℚ)) (k : R)
    (h : (dictKeys d).Nodup) : (dictKeys (dictDel d k)).Nodup := by
  induction d with
  | nil => simp [dictDel, dictKeys]
  | cons kv rest ih =>
    simp only [dictKeys, List.map_cons, List.nodup_cons] at h
    simp only [dictDel]
    by_cases hk : kv.1 = k
    · rw [if_pos hk]; exact h.2
    · rw [if_neg hk]
      simp only [dictKeys, List.map_cons, List.nodup_cons]
      exact ⟨fun hm => h.1 (dictKeys_del_sub rest k hm), ih h.2⟩

theorem mem_removeFirst (l : List R) (k x : R) (h : x ∈ removeFirst l k) : x ∈ l := by
  induction l with
  | nil => simpa [removeFirst] using h
  | cons a rest ih =>
    by_cases ha : a = k
    · simp only [removeFirst, if_pos ha] at h
      exact List.mem_cons_of_mem _ h
    · simp only [removeFirst, if_neg ha] at h
      rcases List.mem_cons.mp h with h1 | h1
      · rw [h1]; exact List.mem_cons_self _ _
      · exact List.mem_cons_of_mem _ (ih h1)

theorem removeFirst_append_self (l : List R) (k : R) (h : k ∉ l) :
    removeFirst (l ++ [k]) k = l := by
  induction l with
  | nil => simp [removeFirst]
  | cons a rest ih =>
    have ha : a ≠ k := fun hh => h (by simp [hh])
    simp only [List.cons_append, removeFirst, if_neg ha]
    exact congrArg (fun l => a :: l) (ih (fun hh => h (List.mem_cons_of_mem _ hh)))

theorem mem_uniqueAux (seen l : List R) (x : R) :
    x ∈ uniqueAux seen l ↔ x ∈ l ∧ x ∉ seen := by
  induction l generalizing seen with
  | nil => simp [uniqueAux]
  | cons a rest ih =>
    by_cases ha : a ∈ seen
    · rw [uniqueAux, if_pos ha, ih]
      constructor
      · rintro ⟨h1, h2⟩
        exact ⟨List.mem_cons_of_mem _ h1, h2⟩
      · rintro ⟨h1, h2⟩
        rcases List.mem_cons.mp h1 with h | h
        · exact absurd ha (by rwa [h] at h2)
        · exact ⟨h, h2⟩
    · rw [uniqueAux, if_neg ha]
      constructor
      · intro hm
        rcases List.mem_cons.mp hm with h1 | h1
        · refine ⟨by rw [h1]; exact List.mem_cons_self _ _, fun hh => ha (by rwa [h1] at hh)⟩
        · rcases (ih (a :: seen)).mp h1 with ⟨hr, hs⟩
          exact ⟨List.mem_cons_of_mem _ hr, fun hh => hs (List.mem_cons_of_mem _ hh)⟩
      · rintro ⟨h1, h2⟩
        rcases List.mem_cons.mp h1 with hx | hx
        · rw [hx]; exact List.mem_cons_self _ _
        · by_cases hxa : x = a
          · rw [hxa]; exact List.mem_cons_self _ _
          · exact List.mem_cons_of_mem _
              ((ih (a :: seen)).mpr ⟨hx, fun hh => (List.mem_cons.mp hh).elim hxa h2⟩)

theorem nodup_uniqueAux (seen l : List R) : (uniqueAux seen l).Nodup := by
  induction l generalizing seen with
  | nil => simp [uniqueAux]
  | cons a rest ih =>
    by_cases ha : a ∈ seen
    · simpa [uniqueAux, if_pos ha] using ih seen
    · simp only [uniqueAux, if_neg ha, List.nodup_cons]
      refine ⟨fun hm => ?_, ih (a :: seen)⟩
      exact ((mem_uniqueAux _ _ _).mp hm).2 (List.mem_cons_self _ _)

theorem mem_upstreamOf (ft : List (R × R)) (o r : R) :
    r ∈ upstreamOf ft o ↔ (r, o) ∈ ft := by
  simp only [upstreamOf, List.mem_map, List.mem_filter, decide_eq_true_iff]
  constructor
  · rintro ⟨e, ⟨he, h2⟩, h1⟩
    rcases e with ⟨a, b⟩
    cases h1
    cases h2
    exact he
  · intro h
    exact ⟨(r, o), ⟨h, rfl⟩, rfl⟩

theorem dictSet_set (d : List (R × Option ℚ)) (k : R) (v w : Option ℚ) :
    dictSet (dictSet d k v) k w = dictSet d k w := by
  induction d with
  | nil => simp [dictSet]
  | cons kv rest ih =>
    simp only [dictSet]
    by_cases hk : kv.1 = k
    · rw [if_pos hk]
      simp [dictSet, hk]
    · rw [if_neg hk]
      simp only [dictSet, if_neg hk, ih]

/- ### Upstream reachability -/


theorem upr_not_self (ft : List (R × R)) (a : R) (h : ∀ e ∈ ft, e.1 ≠ a) :
    ¬ UpR ft a a := by
  intro hu
  cases hu with
  | base hb => exact h _ ((mem_upstreamOf ft a a).mp hb) rfl
  | step hx hb => exact h _ ((mem_upstreamOf ft _ a).mp hb) rfl

/- ### Characterizations of the two branch bodies -/

theorem singleStep_spec (dd : List (R × ℤ)) (red cutoff : ℚ) (o u : R)
    (st : OState R) (hne : o ≠ u) :
    singleStep dd red cutoff o u st =
      (match dictGet st.dict o with
       | none =>
         (⟨st.ids ++ [u], st.idx, dictSet st.dict u none, st.hist ++ [u]⟩, some PErr.keyError)
       | some v =>
         if 0 < damCt dd u then
           match v with
           | none =>
             (⟨st.ids ++ [u], st.idx, dictSet st.dict u none, st.hist ++ [u]⟩, some PErr.typeError)
           | some f =>
             if cutoff < f * red ^ damCt dd u then
               (⟨st.ids ++ [u], st.idx, dictSet st.dict u (some (f * red ^ damCt dd u)),
                 st.hist ++ [u]⟩, none)
             else
               (⟨removeFirst (st.ids ++ [u]) u, st.idx, dictDel st.dict u, st.hist ++ [u]⟩, none)
         else
           (⟨st.ids ++ [u], st.idx, dictSet st.dict u v, st.hist ++ [u]⟩, none)) := by
  unfold singleStep
  have hov : dictGet (dictSet st.dict u none) o = dictGet st.dict o := by
    rw [dictGet_set]
    exact if_neg hne
  by_cases hdam : 0 < damCt dd u
  · rw [if_pos hdam]
    rcases hgo : dictGet st.dict o with _ | v
    · rw [hov, hgo]
    · rcases v with _ | f
      · rw [hov, hgo]
        simp [hdam]
      · rw [hov, hgo]
        by_cases hcut : cutoff < f * red ^ damCt dd u
        · simp [hdam, hcut, dictSet_set]
        · simp [hdam, hcut, dictDel_set]
  · rw [if_neg hdam]
    rcases hgo : dictGet st.dict o with _ | v
    · rw [hov, hgo]
    · rw [hov, hgo]
      simp [hdam, dictSet_set]

theorem confStep_spec (dd : List (R × ℤ)) (red cutoff : ℚ) (o : R)
    (st : OState R) (kp : R × ℚ) (hne : o ≠ kp.1) :
    confStep dd red cutoff o st kp =
      (match dictGet st.dict o with
       | none =>
         (⟨st.ids ++ [kp.1], st.idx, dictSet st.dict kp.1 none, st.hist ++ [kp.1]⟩,
           some PErr.keyError)
       | some none =>
         (⟨st.ids ++ [kp.1], st.idx, dictSet st.dict kp.1 none, st.hist ++ [kp.1]⟩,
           some PErr.typeError)
       | some (some f) =>
         if cutoff < (if 0 < damCt dd kp.1 then (f * kp.2) * red ^ damCt dd kp.1 else f * kp.2) then
           (⟨st.ids ++ [kp.1], st.idx,
             dictSet st.dict kp.1
               (some (if 0 < damCt dd kp.1 then (f * kp.2) * red ^ damCt dd kp.1 else f * kp.2)),
             st.hist ++ [kp.1]⟩, none)
         else
           (⟨removeFirst (st.ids ++ [kp.1]) kp.1, st.idx, dictDel st.dict kp.1,
             st.hist ++ [kp.1]⟩, none)) := by
  unfold confStep
  have hov : dictGet (dictSet st.dict kp.1 none) o = dictGet st.dict o := by
    rw [dictGet_set]
    exact if_neg hne
  by_cases hdam : 0 < damCt dd kp.1
  · rw [if_pos hdam]
    rcases hgo : dictGet st.dict o with _ | v
    · rw [hov, hgo]
    · rcases v with _ | f
      · rw [hov, hgo]
      · rw [hov, hgo]
        by_cases hcut : cutoff < (f * kp.2) * red ^ damCt dd kp.1
        · simp [hdam, hcut, dictSet_set]
        · simp [hdam, hcut, dictDel_set]
  · rw [if_neg hdam]
    rcases hgo : dictGet st.dict o with _ | v
    · rw [hov, hgo]
    · rcases v with _ | f
      · rw [hov, hgo]
      · rw [hov, hgo]
        by_cases hcut : cutoff < f * kp.2
        · simp [hdam, hcut, dictSet_set]
        · simp [hdam, hcut, dictDel_set]

/- ### Invariant: every stored fraction is a number strictly above the cutoff -/


theorem goodDict_set (cutoff : ℚ) (d : List (R × Option ℚ)) (k : R) (q : ℚ)
    (hg : GoodDict cutoff d) (hq : cutoff < q) : GoodDict cutoff (dictSet d k (some q)) := by
  refine ⟨keysNodup_set d k _ hg.1, fun k2 v2 hv2 => ?_⟩
  rw [dictGet_set] at hv2
  by_cases hk2 : k2 = k
  · rw [if_pos hk2] at hv2
    exact ⟨q, (Option.some.injEq .. ▸ hv2 ▸ rfl : v2 = some q), hq⟩
  · rw [if_neg hk2] at hv2
    exact hg.2 k2 v2 hv2

theorem goodDict_del (cutoff : ℚ) (d : List (R × Option ℚ)) (k : R)
    (hg : GoodDict cutoff d) : GoodDict cutoff (dictDel d k) := by
  refine ⟨keysNodup_del d k hg.1, fun k2 v2 hv2 => ?_⟩
  by_cases hk2 : k2 = k
  · rw [hk2, dictGet_del_self d k hg.1] at hv2
    cases hv2
  · rw [dictGet_del_ne d k k2 hk2] at hv2
    exact hg.2 k2 v2 hv2

theorem singleStep_good (dd : List (R × ℤ)) (red cutoff : ℚ) (o u : R)
    (st st1 : OState R) (hne : o ≠ u) (hg : GoodDict cutoff st.dict)
    (h : singleStep dd red cutoff o u st = (st1, none)) : GoodDict cutoff st1.dict := by
  rw [singleStep_spec dd red cutoff o u st hne] at h
  rcases hgo : dictGet st.dict o with _ | v
  · rw [hgo] at h
    cases h
  · rw [hgo] at h
    dsimp only at h
    by_cases hdam : 0 < damCt dd u
    · rw [if_pos hdam] at h
      rcases hg.2 o v hgo with ⟨f, hf, hcf⟩
      rcases v with _ | f2
      · cases hf
      · cases hf
        dsimp only at h
        by_cases hcut : cutoff < f * red ^ damCt dd u
        · rw [if_pos hcut] at h
          cases h
          exact goodDict_set cutoff st.dict u _ hg hcut
        · rw [if_neg hcut] at h
          cases h
          exact goodDict_del cutoff st.dict u hg
    · rw [if_neg hdam] at h
      cases h
      rcases hg.2 o v hgo with ⟨f, hf, hcf⟩
      subst hf
      exact goodDict_set cutoff st.dict u f hg hcf

theorem confStep_good (dd : List (R × ℤ)) (red cutoff : ℚ) (o : R)
    (st st1 : OState R) (kp : R × ℚ) (hne : o ≠ kp.1) (hg : GoodDict cutoff st.dict)
    (h : confStep dd red cutoff o st kp = (st1, none)) : GoodDict cutoff st1.dict := by
  rw [confStep_spec dd red cutoff o st kp hne] at h
  rcases hgo : dictGet st.dict o with _ | v
  · rw [hgo] at h
    cases h
  · rw [hgo] at h
    rcases v with _ | f
    · dsimp only at h
      cases h
    · dsimp only at h
      by_cases hcut : cutoff <
        (if 0 < damCt dd kp.1 then (f * kp.2) * red ^ damCt dd kp.1 else f * kp.2)
      · rw [if_pos hcut] at h
        cases h
        exact goodDict_set cutoff st.dict kp.1 _ hg hcut
      · rw [if_neg hcut] at h
        cases h
        exact goodDict_del cutoff st.dict kp.1 hg

theorem confLoop_good (dd : List (R × ℤ)) (red cutoff : ℚ) (o : R) :
    ∀ (l : List (R × ℚ)) (st st1 : OState R), (∀ kp ∈ l, o ≠ kp.1) →
      GoodDict cutoff st.dict → confLoop dd red cutoff o l st = (st1, none) →
      GoodDict cutoff st1.dict := by
  intro l
  induction l with
  | nil =>
    intro st st1 _ hg h
    cases h
    exact hg
  | cons kp rest ih =>
    intro st st1 hne hg h
    simp only [confLoop] at h
    rcases hcs : confStep dd red cutoff o st kp with ⟨st2, e2⟩
    rw [hcs] at h
    cases e2 with
    | none =>
      exact ih st2 st1 (fun kp2 hm => hne kp2 (List.mem_cons_of_mem _ hm))
        (confStep_good dd red cutoff o st st2 kp (hne kp (List.mem_cons_self _ _)) hg hcs) h
    | some e => cases h

theorem step_good (dd : List (R × ℤ)) (ft : List (R × R)) (sa : StreamAttr R)
    (red cutoff : ℚ) (o : R) (st st1 : OState R)
    (Hloop : ∀ e ∈ ft, e.1 ≠ e.2) (hg : GoodDict cutoff st.dict)
    (h : step dd ft sa red cutoff o st = (st1, none)) : GoodDict cutoff st1.dict := by
  have hup : ∀ r, r ∈ upstreamOf ft o → o ≠ r := by
    intro r hr hor
    exact Hloop (r, o) ((mem_upstreamOf ft o r).mp hr) (by rw [hor])
  unfold step at h
  rcases hq : upstreamOf ft o with _ | ⟨u, rest⟩
  · rw [hq] at h
    cases h
    exact hg
  · rcases rest with _ | ⟨u2, rest2⟩
    · rw [hq] at h
      dsimp only at h
      rcases hss : singleStep dd red cutoff o u st with ⟨st2, e2⟩
      rw [hss] at h
      cases e2 with
      | none =>
        cases h
        exact singleStep_good dd red cutoff o u st st2
          (hup u (by rw [hq]; exact List.mem_cons_self _ _)) hg hss
      | some e => cases h
    · rw [hq] at h
      dsimp only at h
      rcases hcp : confluenceProps sa (u :: u2 :: rest2) with _ | props
      · rw [hcp] at h
        cases h
      · rw [hcp] at h
        dsimp only at h
        rcases hcl : confLoop dd red cutoff o ((u :: u2 :: rest2).zip props) st with ⟨st2, e2⟩
        rw [hcl] at h
        cases e2 with
        | none =>
          cases h
          refine confLoop_good dd red cutoff o _ st st2 (fun kp hm => ?_) hg hcl
          have : kp.1 ∈ u :: u2 :: rest2 := (List.of_mem_zip hm).1
          exact hup kp.1 (by rw [hq]; exact this)
        | some e => cases h

theorem runO_good (dd : List (R × ℤ)) (ft : List (R × R)) (sa : StreamAttr R)
    (red cutoff : ℚ) (Hloop : ∀ e ∈ ft, e.1 ≠ e.2) :
    ∀ (fuel : ℕ) (st : OState R) (d : List (R × Option ℚ)) (fin : OState R),
      GoodDict cutoff st.dict →
      runO dd ft sa red cutoff fuel st = (ROut.ok d, fin) → GoodDict cutoff d := by
  intro fuel
  induction fuel with
  | zero =>
    intro st d fin _ h
    cases h
  | succ n ih =>
    intro st d fin hg h
    simp only [runO] at h
    rcases hget : st.ids[st.idx]? with _ | o
    · rw [hget] at h
      cases h
      exact hg
    · rw [hget] at h
      dsimp only at h
      rcases hst : step dd ft sa red cutoff o st with ⟨st2, e2⟩
      rw [hst] at h
      cases e2 with
      | none => exact ih st2 d fin (step_good dd ft sa red cutoff o st st2 Hloop hg hst) h
      | some e => cases h

/- ### Invariant: the origin's entry is untouched while only upstream
reaches are appended -/

theorem singleStep_orig (dd : List (R × ℤ)) (red cutoff : ℚ) (o u : R)
    (st st1 : OState R) (e : Option PErr) (origin : R) (v0 : Option ℚ)
    (huo : u ≠ origin) (hdict : dictGet st.dict origin = some v0)
    (h : singleStep dd red cutoff o u st = (st1, e)) :
    dictGet st1.dict origin = some v0 ∧ ∀ r ∈ st1.ids, r ∈ st.ids ∨ r = u := by
  have hso : origin ≠ u := fun hh => huo hh.symm
  have hget1 : dictGet (dictSet st.dict u none) origin = some v0 := by
    rw [dictGet_set, if_neg hso]
    exact hdict
  have hmem1 : ∀ r ∈ st.ids ++ [u], r ∈ st.ids ∨ r = u := by
    intro r hr
    rcases List.mem_append.mp hr with hr | hr
    · exact Or.inl hr
    · exact Or.inr (List.mem_singleton.mp hr)
  unfold singleStep at h
  by_cases hdam : 0 < damCt dd u
  · rw [if_pos hdam] at h
    rcases hg : dictGet (dictSet st.dict u none) o with _ | v
    · rw [hg] at h
      cases h
      exact ⟨hget1, hmem1⟩
    · rcases v with _ | f
      · rw [hg] at h
        cases h
        exact ⟨hget1, hmem1⟩
      · rw [hg] at h
        dsimp only at h
        by_cases hcut : cutoff < f * red ^ damCt dd u
        · rw [if_pos hcut] at h
          cases h
          refine ⟨?_, hmem1⟩
          rw [dictGet_set, if_neg hso]
          exact hget1
        · rw [if_neg hcut] at h
          cases h
          refine ⟨?_, fun r hr => hmem1 r (mem_removeFirst _ _ _ hr)⟩
          rw [dictGet_del_ne _ u origin hso]
          exact hget1
  · rw [if_neg hdam] at h
    rcases hg : dictGet (dictSet st.dict u none) o with _ | v
    · rw [hg] at h
      cases h
      exact ⟨hget1, hmem1⟩
    · rw [hg] at h
      cases h
      refine ⟨?_, hmem1⟩
      rw [dictGet_set, if_neg hso]
      exact hget1

theorem confStep_orig (dd : List (R × ℤ)) (red cutoff : ℚ) (o : R)
    (st st1 : OState R) (e : Option PErr) (kp : R × ℚ) (origin : R) (v0 : Option ℚ)
    (huo : kp.1 ≠ origin) (hdict : dictGet st.dict origin = some v0)
    (h : confStep dd red cutoff o st kp = (st1, e)) :
    dictGet st1.dict origin = some v0 ∧ ∀ r ∈ st1.ids, r ∈ st.ids ∨ r = kp.1 := by
  have hso : origin ≠ kp.1 := fun hh => huo hh.symm
  have hget1 : dictGet (dictSet st.dict kp.1 none) origin = some v0 := by
    rw [dictGet_set, if_neg hso]
    exact hdict
  have hmem1 : ∀ r ∈ st.ids ++ [kp.1], r ∈ st.ids ∨ r = kp.1 := by
    intro r hr
    rcases List.mem_append.mp hr with hr | hr
    · exact Or.inl hr
    · exact Or.inr (List.mem_singleton.mp hr)
  unfold confStep at h
  by_cases hdam : 0 < damCt dd kp.1
  · rw [if_pos hdam] at h
    rcases hg : dictGet (dictSet st.dict kp.1 none) o with _ | v
    · rw [hg] at h
      cases h
      exact ⟨hget1, hmem1⟩
    · rcases v with _ | f
      · rw [hg] at h
        cases h
        exact ⟨hget1, hmem1⟩
      · rw [hg] at h
        dsimp only at h
        by_cases hcut : cutoff < (f * kp.2) * red ^ damCt dd kp.1
        · rw [if_pos hcut] at h
          cases h
          refine ⟨?_, hmem1⟩
          rw [dictGet_set, if_neg hso]
          exact hget1
        · rw [if_neg hcut] at h
          cases h
          refine ⟨?_, fun r hr => hmem1 r (mem_removeFirst _ _ _ hr)⟩
          rw [dictGet_del_ne _ kp.1 origin hso]
          exact hget1
  · rw [if_neg hdam] at h
    rcases hg : dictGet (dictSet st.dict kp.1 none) o with _ | v
    · rw [hg] at h
      cases h
      exact ⟨hget1, hmem1⟩
    · rcases v with _ | f
      · rw [hg] at h
        cases h
        exact ⟨hget1, hmem1⟩
      · rw [hg] at h
        dsimp only at h
        by_cases hcut : cutoff < f * kp.2
        · rw [if_pos hcut] at h
          cases h
          refine ⟨?_, hmem1⟩
          rw [dictGet_set, if_neg hso]
          exact hget1
        · rw [if_neg hcut] at h
          cases h
          refine ⟨?_, fun r hr => hmem1 r (mem_removeFirst _ _ _ hr)⟩
          rw [dictGet_del_ne _ kp.1 origin hso]
          exact hget1

theorem confLoop_orig (dd : List (R × ℤ)) (red cutoff : ℚ) (o : R) (origin : R)
    (v0 : Option ℚ) :
    ∀ (l : List (R × ℚ)) (st st1 : OState R) (e : Option PErr),
      (∀ kp ∈ l, kp.1 ≠ origin) → dictGet st.dict origin = some v0 →
      confLoop dd red cutoff o l st = (st1, e) →
      dictGet st1.dict origin = some v0 ∧
        ∀ r ∈ st1.ids, r ∈ st.ids ∨ ∃ kp ∈ l, r = kp.1 := by
  intro l
  induction l with
  | nil =>
    intro st st1 e _ hdict h
    cases h
    exact ⟨hdict, fun r hr => Or.inl hr⟩
  | cons kp rest ih =>
    intro st st1 e hne hdict h
    simp only [confLoop] at h
    rcases hcs : confStep dd red cutoff o st kp with ⟨st2, e2⟩
    rw [hcs] at h
    have hstep := confStep_orig dd red cutoff o st st2 e2 kp origin v0
      (hne kp (List.mem_cons_self _ _)) hdict hcs
    cases e2 with
    | none =>
      have hrec := ih st2 st1 e (fun kp2 hm => hne kp2 (List.mem_cons_of_mem _ hm)) hstep.1 h
      refine ⟨hrec.1, fun r hr => ?_⟩
      rcases hrec.2 r hr with hr2 | ⟨kp2, hm2, he2⟩
      · rcases hstep.2 r hr2 with hr3 | hr3
        · exact Or.inl hr3
        · exact Or.inr ⟨kp, List.mem_cons_self _ _, hr3⟩
      · exact Or.inr ⟨kp2, List.mem_cons_of_mem _ hm2, he2⟩
    | some e3 =>
      cases h
      refine ⟨hstep.1, fun r hr => ?_⟩
      rcases hstep.2 r hr with hr2 | hr2
      · exact Or.inl hr2
      · exact Or.inr ⟨kp, List.mem_cons_self _ _, hr2⟩

theorem step_orig (dd : List (R × ℤ)) (ft : List (R × R)) (sa : StreamAttr R)
    (red cutoff : ℚ) (o : R) (st st1 : OState R) (e : Option PErr)
    (origin : R) (v0 : Option ℚ)
    (hou : ∀ r ∈ upstreamOf ft o, r ≠ origin)
    (hdict : dictGet st.dict origin = some v0)
    (h : step dd ft sa red cutoff o st = (st1, e)) :
    dictGet st1.dict origin = some v0 ∧
      ∀ r ∈ st1.ids, r ∈ st.ids ∨ r ∈ upstreamOf ft o := by
  unfold step at h
  rcases hq : upstreamOf ft o with _ | ⟨u, rest⟩
  · rw [hq] at h
    cases h
    exact ⟨hdict, fun r hr => Or.inl hr⟩
  · rcases rest with _ | ⟨u2, rest2⟩
    · rw [hq] at h
      dsimp only at h
      rcases hss : singleStep dd red cutoff o u st with ⟨st2, e2⟩
      rw [hss] at h
      have hstep := singleStep_orig dd red cutoff o u st st2 e2 origin v0
        (hou u (by rw [hq]; exact List.mem_cons_self _ _)) hdict hss
      cases e2 with
      | none =>
        cases h
        refine ⟨hstep.1, fun r hr => ?_⟩
        rcases hstep.2 r hr with hr2 | hr2
        · exact Or.inl hr2
        · exact Or.inr (by rw [hr2]; exact List.mem_cons_self _ _)
      | some e3 =>
        cases h
        refine ⟨hstep.1, fun r hr => ?_⟩
        rcases hstep.2 r hr with hr2 | hr2
        · exact Or.inl hr2
        · exact Or.inr (by rw [hr2]; exact List.mem_cons_self _ _)
    · rw [hq] at h
      dsimp only at h
      rcases hcp : confluenceProps sa (u :: u2 :: rest2) with _ | props
      · rw [hcp] at h
        cases h
        exact ⟨hdict, fun r hr => Or.inl hr⟩
      · rw [hcp] at h
        dsimp only at h
        rcases hcl : confLoop dd red cutoff o ((u :: u2 :: rest2).zip props) st with ⟨st2, e2⟩
        rw [hcl] at h
        have hloop := confLoop_orig dd red cutoff o origin v0 _ st st2 e2
          (fun kp hm => hou kp.1 (by rw [hq]; exact (List.of_mem_zip hm).1)) hdict hcl
        have hids : ∀ r ∈ st2.ids, r ∈ st.ids ∨ r ∈ u :: u2 :: rest2 := by
          intro r hr
          rcases hloop.2 r hr with hr2 | ⟨kp, hm, he⟩
          · exact Or.inl hr2
          · exact Or.inr (by rw [he]; exact (List.of_mem_zip hm).1)
        cases e2 with
        | none =>
          cases h
          exact ⟨hloop.1, hids⟩
        | some e3 =>
          cases h
          exact ⟨hloop.1, hids⟩

theorem runO_orig (dd : List (R × ℤ)) (ft : List (R × R)) (sa : StreamAttr R)
    (red cutoff : ℚ) (origin : R) (v0 : Option ℚ)
    (hcyc : ¬ UpR ft origin origin) :
    ∀ (fuel : ℕ) (st : OState R),
      (∀ r ∈ st.ids, r = origin ∨ UpR ft origin r) →
      dictGet st.dict origin = some v0 →
      ∀ (d : List (R × Option ℚ)) (fin : OState R),
        runO dd ft sa red cutoff fuel st = (ROut.ok d, fin) →
        dictGet d origin = some v0 := by
  intro fuel
  induction fuel with
  | zero =>
    intro st _ _ d fin h
    cases h
  | succ n ih =>
    intro st hids hdict d fin h
    simp only [runO] at h
    rcases hget : st.ids[st.idx]? with _ | o
    · rw [hget] at h
      cases h
      exact hdict
    · rw [hget] at h
      dsimp only at h
      have ho : o ∈ st.ids := List.getElem?_mem hget
      have hupr : ∀ r ∈ upstreamOf ft o, UpR ft origin r := by
        intro r hr
        rcases hids o ho with hoo | hoo
        · exact UpR.base (by rw [← hoo]; exact hr)
        · exact UpR.step hoo hr
      have hne_up : ∀ r ∈ upstreamOf ft o, r ≠ origin := by
        intro r hr he
        exact hcyc (he ▸ hupr r hr)
      rcases hst : step dd ft sa red cutoff o st with ⟨st2, e2⟩
      rw [hst] at h
      have hstep := step_orig dd ft sa red cutoff o st st2 e2 origin v0 hne_up hdict hst
      cases e2 with
      | none =>
        refine ih st2 (fun r hr => ?_) hstep.1 d fin h
        rcases hstep.2 r hr with hr2 | hr2
        · exact hids r hr2
        · exact Or.inr (hupr r hr2)
      | some e3 => cases h

theorem initOState_dict (dd : List (R × ℤ)) (red : ℚ) (origin : R) :
    (initOState dd red origin).dict = [(origin, some (initFrac dd red origin))] := by
  by_cases h : 0 < damCt dd origin <;>
    simp [initOState, initFrac, dictSet, h]


/- ### Claim theorems -/

/-- C1, as stated, is false on the code: with one dam at origin A,
pct_pass = 0 and pct_cutoff = 1, the origin's fraction is 0, and the
single-upstream no-dam branch (source line 308) copies that 0 to reach B
with no cutoff test, so B ≠ A sits in the result with fraction 0 ≤ 1. -/
theorem fish_C1_cex :
    fish_passage [(Sum.inl "A", 1)] [Sum.inl "A"] [(Sum.inl "B", Sum.inl "A")] 0 1
        (StreamAttr.strval "NONE") 10
      = Except.ok [(Sum.inl "A", [(Sum.inl "A", some 0), (Sum.inl "B", some 0)])]
    ∧ (Sum.inl "B" : RId) ≠ Sum.inl "A"
    ∧ ¬ ((1 : ℚ) < 0) := by
  refine ⟨by with_unfolding_all decide, by decide, by norm_num⟩

/-- C1 (amended): in a network with no self-loop edge, whenever the
origin's initial fraction exceeds the cutoff and a per-origin traversal
completes, every reach recorded in its result map (origin included) has a
numeric fraction strictly greater than the cutoff — in particular a branch
whose computed fraction equals the cutoff exactly is absent; and whenever
the origin is on no upstream cycle, the origin stays present with its
initial fraction. -/
theorem fish_C1_amended (dd : List (R × ℤ)) (ft : List (R × R)) (sa : StreamAttr R)
    (red cutoff : ℚ) (origin : R) (fuel : ℕ) (d : List (R × Option ℚ)) (fin : OState R)
    (Hloop : ∀ e ∈ ft, e.1 ≠ e.2)
    (Hinit : cutoff < initFrac dd red origin)
    (hrun : runO dd ft sa red cutoff fuel (initOState dd red origin) = (ROut.ok d, fin)) :
    allAbove cutoff d
    ∧ (¬ UpR ft origin origin → dictGet d origin = some (some (initFrac dd red origin))) := by
  have hgood : GoodDict cutoff (initOState dd red origin).dict := by
    rw [initOState_dict]
    refine ⟨by simp [dictKeys], fun k v hv => ?_⟩
    simp only [dictGet] at hv
    by_cases hk : origin = k
    · rw [if_pos hk] at hv
      cases hv
      exact ⟨initFrac dd red origin, rfl, Hinit⟩
    · rw [if_neg hk] at hv
      cases hv
  constructor
  · exact (runO_good dd ft sa red cutoff Hloop fuel _ d fin hgood hrun).2
  · intro hcyc
    refine runO_orig dd ft sa red cutoff origin (some (initFrac dd red origin)) hcyc fuel
      (initOState dd red origin) ?_ ?_ d fin hrun
    · intro r hr
      simp only [initOState] at hr
      exact Or.inl (List.mem_singleton.mp hr)
    · rw [initOState_dict]
      simp [dictGet]

/-- Witness for C1 (amended): dams {A}, edges {(B, A)}, pct_pass 50 percent,
cutoff 30; the completed run records A and B at fraction 50 > 30. -/
theorem fish_C1_amended_w :
    allAbove (30 : ℚ) ([("A", some (50 : ℚ)), ("B", some 50)] : List (String × Option ℚ))
    ∧ dictGet ([("A", some (50 : ℚ)), ("B", some 50)] : List (String × Option ℚ)) "A"
      = some (some (initFrac [("A", (1 : ℤ))] (1 / 2) "A")) := by
  have h := fish_C1_amended [("A", (1 : ℤ))] [("B", "A")] (StreamAttr.strval "NONE")
    (1 / 2) 30 "A" 5 [("A", some 50), ("B", some 50)]
    ⟨["A", "B"], 2, [("A", some 50), ("B", some 50)], ["A", "B"]⟩
    (by decide) (by with_unfolding_all decide) (by with_unfolding_all decide)
  exact ⟨h.1, h.2 (upr_not_self _ _ (by decide))⟩

/-- C4: per origin, the initial result map is exactly {origin : fraction}
with fraction = 100 · (pct_pass/100)^k for k dam rows at the origin, and
100 when there are none; and in a network with no upstream cycle through
the origin, a completed traversal still maps the origin to that value. -/
theorem fish_C4 (dd : List (R × ℤ)) (ft : List (R × R)) (sa : StreamAttr R)
    (red cutoff : ℚ) (origin : R) (fuel : ℕ) :
    (initOState dd red origin).dict = [(origin, some (initFrac dd red origin))]
    ∧ initFrac dd red origin = 100 * red ^ damCt dd origin
    ∧ (damCt dd origin = 0 → initFrac dd red origin = 100)
    ∧ (¬ UpR ft origin origin →
        ∀ (d : List (R × Option ℚ)) (fin : OState R),
          runO dd ft sa red cutoff fuel (initOState dd red origin) = (ROut.ok d, fin) →
          dictGet d origin = some (some (initFrac dd red origin))) := by
  refine ⟨initOState_dict dd red origin, ?_, ?_, ?_⟩
  · unfold initFrac
    by_cases h : 0 < damCt dd origin
    · rw [if_pos h]
    · rw [if_neg h, Nat.eq_zero_of_not_pos h]
      simp
  · intro h
    unfold initFrac
    rw [if_neg (by rw [h]; exact Nat.lt_irrefl 0)]
  · intro hcyc d fin hrun
    refine runO_orig dd ft sa red cutoff origin (some (initFrac dd red origin)) hcyc fuel
      (initOState dd red origin) ?_ ?_ d fin hrun
    · intro r hr
      simp only [initOState] at hr
      exact Or.inl (List.mem_singleton.mp hr)
    · rw [initOState_dict]
      simp [dictGet]

/-- Witness for C4: with one dam row at origin A and pct_pass 50 percent the
initial fraction is 50 = 100 · (1/2)^1, and the completed run on edge
(B, A) still maps A to it. -/
theorem fish_C4_w :
    initFrac [("A", (1 : ℤ))] ((1 : ℚ) / 2) "A" = 100 * ((1 : ℚ) / 2) ^ damCt [("A", (1 : ℤ))] "A"
    ∧ dictGet ([("A", some (50 : ℚ)), ("B", some 50)] : List (String × Option ℚ)) "A"
      = some (some (initFrac [("A", (1 : ℤ))] (1 / 2) "A")) := by
  have h := fish_C4 [("A", (1 : ℤ))] [("B", "A")] (StreamAttr.strval "NONE") (1 / 2) 30 "A" 5
  exact ⟨h.2.1, h.2.2.2 (upr_not_self _ _ (by decide))
    [("A", some 50), ("B", some 50)]
    ⟨["A", "B"], 2, [("A", some 50), ("B", some 50)], ["A", "B"]⟩ (by with_unfolding_all decide)⟩



theorem lookupAll_length (rows : List (R × ℚ)) :
    ∀ (q : List R) (attrs : List ℚ), lookupAll rows q = some attrs →
      attrs.length = q.length := by
  intro q
  induction q with
  | nil =>
    intro attrs h
    cases h
    rfl
  | cons r rest ih =>
    intro attrs h
    simp only [lookupAll] at h
    rcases ha : attrLookup rows r with _ | v
    · rw [ha] at h
      cases h
    · rw [ha] at h
      rcases hr : lookupAll rows rest with _ | vs
      · rw [hr] at h
        cases h
      · rw [hr] at h
        cases h
        simp [ih vs hr]

theorem lookupAll_none_iff (rows : List (R × ℚ)) :
    ∀ q : List R, lookupAll rows q = none ↔ ∃ u ∈ q, attrLookup rows u = none := by
  intro q
  induction q with
  | nil => simp [lookupAll]
  | cons r rest ih =>
    simp only [lookupAll]
    rcases ha : attrLookup rows r with _ | v
    · constructor
      · intro _
        exact ⟨r, List.mem_cons_self _ _, ha⟩
      · intro _
        cases hx : lookupAll rows rest <;> rfl
    · rcases hr : lookupAll rows rest with _ | vs
      · constructor
        · intro _
          rcases ih.mp hr with ⟨u, hu, hnone⟩
          exact ⟨u, List.mem_cons_of_mem _ hu, hnone⟩
        · intro _
          rfl
      · constructor
        · intro h
          cases h
        · rintro ⟨u, hu, hnone⟩
          rcases List.mem_cons.mp hu with hu | hu
          · rw [hu] at hnone
            rw [hnone] at ha
            cases ha
          · rw [ih.mpr ⟨u, hu, hnone⟩] at hr
            cases hr

theorem sum_map_div (l : List ℚ) (s : ℚ) :
    (l.map (fun v => v / s)).sum = l.sum / s := by
  induction l with
  | nil => simp
  | cons a rest ih =>
    simp only [List.map_cons, List.sum_cons, ih]
    rw [div_add_div_same]

/-- C2 is right and the code is wrong: with tributaries T1 = {a, b}
(traversed by main stems m → a → b → z) and T2 = {x} (fully bounded, no
non-terminal reach), find_main_stems returns the empty list because
processing T2 assigns a fresh empty list to the accumulator (source line
108), erasing T1's reaches; running on T1 alone returns them. -/
theorem fish_C2_eval :
    find_main_stems [("T1", "a"), ("T1", "b"), ("T2", "x")]
        [("m", "a"), ("a", "b"), ("b", "z"), ("x", "w")] 20 = Except.ok []
    ∧ find_main_stems [("T1", "a"), ("T1", "b")]
        [("m", "a"), ("a", "b"), ("b", "z"), ("x", "w")] 20
      = Except.ok ["m", "a", "b", "z"] := by
  exact ⟨by decide, by decide⟩

/-- C5 is contradicted by the code on a braided (but acyclic) network:
origin O with upstream branches X (attribute 6) and Y (attribute 4), both
of which flow from K (one dam), and C upstream of K. Processing Y re-enqueues
K, whose recomputed fraction 20 fails the cutoff 25, so the code removes the
first (still pending) occurrence of K from the worklist and deletes K's
dictionary entry; the surviving duplicate of K is then processed and the
lookup o_dict[K] raises KeyError instead of the worklist running to
exhaustion. The docstring's promise that braided channels work fails. -/
theorem fish_C5_eval :
    fish_passage [(Sum.inl "K", 7)] [Sum.inl "O"]
        [(Sum.inl "X", Sum.inl "O"), (Sum.inl "Y", Sum.inl "O"),
          (Sum.inl "K", Sum.inl "X"), (Sum.inl "K", Sum.inl "Y"),
          (Sum.inl "C", Sum.inl "K")]
        50 25 (StreamAttr.table [(Sum.inl "X", 6), (Sum.inl "Y", 4)]) 20
      = Except.error (FPErr.runtime PErr.keyError) := by
  with_unfolding_all decide

/-- C6: find_origins on nonempty inputs returns exactly the deduplicated
"from" reaches of edges into the main-stem set from outside it, so the
result is duplicate-free and disjoint from the main-stem input. -/
theorem fish_C6 (ms : List R) (ft : List (R × R)) (h1 : ms ≠ []) (h2 : ft ≠ []) :
    ∃ l, find_origins ms ft = Except.ok l
      ∧ (∀ x, x ∈ l ↔ ∃ e ∈ ft, e.1 = x ∧ e.2 ∈ ms ∧ x ∉ ms)
      ∧ (∀ x ∈ l, x ∉ ms)
      ∧ l.Nodup := by
  have hcond : ¬ (ms.length = 0 ∨ ft.length = 0) := by
    rintro (h | h)
    · exact h1 (List.length_eq_zero.mp h)
    · exact h2 (List.length_eq_zero.mp h)
  unfold find_origins
  rw [if_neg hcond]
  have hchar : ∀ x,
      x ∈ uniqueAux []
        ((ft.filter (fun r => decide (r.2 ∈ ms) && decide (r.1 ∉ ms))).map (fun r => r.1))
      ↔ ∃ e ∈ ft, e.1 = x ∧ e.2 ∈ ms ∧ x ∉ ms := by
    intro x
    rw [mem_uniqueAux]
    simp only [List.mem_map, List.mem_filter, Bool.and_eq_true, decide_eq_true_iff,
      List.not_mem_nil, not_false_iff, and_true]
    constructor
    · rintro ⟨e, ⟨he, hin, hout⟩, hx⟩
      exact ⟨e, he, hx, hin, hx ▸ hout⟩
    · rintro ⟨e, he, hx, hin, hout⟩
      exact ⟨e, ⟨he, hin, hx.symm ▸ hout⟩, hx⟩
  refine ⟨_, rfl, hchar, fun x hx => ?_, nodup_uniqueAux _ _⟩
  rcases (hchar x).mp hx with ⟨e, _, _, _, hout⟩
  exact hout

/-- Witness for C6: main stems {A} and single edge (B, A) give origins {B},
characterized as above and disjoint from {A}. -/
theorem fish_C6_w :
    ∃ l, find_origins ["A"] [("B", "A")] = Except.ok l
      ∧ (∀ x, x ∈ l ↔ ∃ e ∈ [("B", "A")], e.1 = x ∧ e.2 ∈ ["A"] ∧ x ∉ ["A"])
      ∧ (∀ x ∈ l, x ∉ ["A"])
      ∧ l.Nodup :=
  fish_C6 ["A"] [("B", "A")] (by decide) (by decide)

/-- C7: at a proportionally split confluence whose branches all carry
positive attribute values, the computed shares attr(u)/Σ attr sum to
exactly 1 (the model works in rationals, so the claim's floating-point
tolerance is exact equality here). -/
theorem fish_C7 (rows : List (R × ℚ)) (q : List R) (attrs : List ℚ)
    (hq : q ≠ []) (hl : lookupAll rows q = some attrs) (hpos : ∀ a ∈ attrs, 0 < a) :
    confluenceProps (StreamAttr.table rows) q = some (attrs.map (fun v => v / attrs.sum))
    ∧ (attrs.map (fun v => v / attrs.sum)).sum = 1 := by
  have hlen : attrs.length = q.length := lookupAll_length rows q attrs hl
  have hne : attrs ≠ [] := by
    intro he
    rw [he] at hlen
    exact hq (List.length_eq_zero.mp hlen.symm)
  have hsum : 0 < attrs.sum := List.sum_pos attrs hpos hne
  constructor
  · simp only [confluenceProps, hl]
  · rw [sum_map_div, div_self (ne_of_gt hsum)]

/-- Witness for C7: attributes X : 30, Y : 70 give shares 30/100 and 70/100,
which sum to 1. -/
theorem fish_C7_w :
    confluenceProps (StreamAttr.table [("X", (30 : ℚ)), ("Y", 70)]) ["X", "Y"]
      = some ([(30 : ℚ), 70].map (fun v => v / [(30 : ℚ), 70].sum))
    ∧ ([(30 : ℚ), 70].map (fun v => v / [(30 : ℚ), 70].sum)).sum = 1 :=
  fish_C7 [("X", 30), ("Y", 70)] ["X", "Y"] [30, 70] (by decide)
    (by with_unfolding_all decide) (by with_unfolding_all decide)

/-- C8: fish_passage is a pure function of its arguments — two calls on
equal inputs produce equal per-origin result sets (the model carries no
state between calls, mirroring the source, which reads only its arguments
and locals). -/
theorem fish_C8 (dd1 dd2 : List (RId × ℤ)) (ori1 ori2 : List RId)
    (ft1 ft2 : List (RId × RId)) (pp1 pp2 pc1 pc2 : ℤ) (sa1 sa2 : StreamAttr RId)
    (fuel1 fuel2 : ℕ)
    (h : dd1 = dd2 ∧ ori1 = ori2 ∧ ft1 = ft2 ∧ pp1 = pp2 ∧ pc1 = pc2 ∧ sa1 = sa2 ∧
      fuel1 = fuel2) :
    pairMultisets (fish_passage dd1 ori1 ft1 pp1 pc1 sa1 fuel1)
      = pairMultisets (fish_passage dd2 ori2 ft2 pp2 pc2 sa2 fuel2) := by
  obtain ⟨h1, h2, h3, h4, h5, h6, h7⟩ := h
  rw [h1, h2, h3, h4, h5, h6, h7]

/-- Witness for C8: the two runs below receive equal (syntactically
distinct) arguments and give equal result sets. -/
theorem fish_C8_w :
    pairMultisets (fish_passage [(Sum.inl "A", 1)] [Sum.inl "A"]
        [(Sum.inl "B", Sum.inl "A")] 50 25 (StreamAttr.strval "NONE") 10)
      = pairMultisets (fish_passage [(Sum.inl "A", 1)] [Sum.inl "A"]
        [(Sum.inl "B", Sum.inl "A")] 50 25 (StreamAttr.strval "NONE") (5 + 5)) :=
  fish_C8 _ _ _ _ _ _ _ _ _ _ _ _ _ _
    ⟨rfl, rfl, rfl, rfl, rfl, rfl, by decide⟩

/-- C9 is right and the code is wrong: reach ids may be strings or
integers, but the progress message "Analyzing fish passage upstream of "
+ origin (source line 247) concatenates the raw id, so an integer origin
id raises TypeError and aborts the call, while the same network with
string labels runs to completion. -/
theorem fish_C9_eval :
    fish_passage [(Sum.inr 1, 5)] [Sum.inr 1] [(Sum.inr 2, Sum.inr 1)] 50 25
        (StreamAttr.strval "NONE") 10
      = Except.error (FPErr.runtime PErr.typeError)
    ∧ progressMessage (Sum.inr 1) = none
    ∧ fish_passage [(Sum.inl "1", 5)] [Sum.inl "1"] [(Sum.inl "2", Sum.inl "1")] 50 25
        (StreamAttr.strval "NONE") 10
      = Except.ok [(Sum.inl "1", [(Sum.inl "1", some 50), (Sum.inl "2", some 50)])] := by
  exact ⟨by with_unfolding_all decide, rfl, by with_unfolding_all decide⟩

theorem runOrigins_not_invalid (dd : List (RId × ℤ)) (ft : List (RId × RId))
    (sa : StreamAttr RId) (red cutoff : ℚ) (fuel : ℕ) :
    ∀ (ori : List RId) (m : String),
      runOrigins dd ft sa red cutoff fuel ori ≠ Except.error (FPErr.invalidInput m) := by
  intro ori
  induction ori with
  | nil =>
    intro m h
    cases h
  | cons o rest ih =>
    intro m h
    simp only [runOrigins] at h
    rcases hp : progressMessage o with _ | msg
    · rw [hp] at h
      cases h
    · rw [hp] at h
      dsimp only at h
      rcases hr : runO dd ft sa red cutoff fuel (initOState dd red o) with ⟨out, fin⟩
      rw [hr] at h
      cases out with
      | ok d =>
        dsimp only at h
        rcases hrest : runOrigins dd ft sa red cutoff fuel rest with e | ds
        · rw [hrest] at h
          dsimp only at h
          injection h with h2
          rw [h2] at hrest
          exact ih m hrest
        · rw [hrest] at h
          cases h
      | err e =>
        dsimp only at h
        cases h
      | fuelOut =>
        dsimp only at h
        cases h

/-- C3's counterexample: the inputs below satisfy none of the claim's
listed conditions ((v), a missing splitting attribute, is inapplicable
because the sentinel is used), yet the call fails — the origin id is an
integer and the progress-message concatenation raises TypeError, and the
error is a runtime exception, not the validation error kind. -/
theorem fish_C3_cex :
    listedInvalid [(Sum.inr 42, 1)] [Sum.inr 42] [(Sum.inr 43, Sum.inr 42)] 60 20
        (StreamAttr.strval "NONE") = false
    ∧ fish_passage [(Sum.inr 42, 1)] [Sum.inr 42] [(Sum.inr 43, Sum.inr 42)] 60 20
        (StreamAttr.strval "NONE") 10
      = Except.error (FPErr.runtime PErr.typeError) := by
  exact ⟨by decide, by with_unfolding_all decide⟩

/-- C3 (amended): fish_passage signals the validation (sys.exit) error kind
exactly when one of the listed input conditions holds (wrong-type shapes are
outside a typed embedding); a confluence branch reach missing from the
splitting-attribute table is exactly what makes the confluence-proportion
computation fail, which aborts the traversal as a lookup (IndexError)
runtime error with no partial results; other runtime failures (integer
origin ids, duplicate-enqueue dictionary corruption) can also abort the
call, so the listed conditions are not the only failure modes. -/
theorem listedInvalid_iff (dd : List (RId × ℤ)) (ori : List RId) (ft : List (RId × RId))
    (pp pc : ℤ) (sa : StreamAttr RId) :
    listedInvalid dd ori ft pp pc sa = true ↔
      (dd.length = 0 ∨ ori.length = 0 ∨ ft.length = 0 ∨ saLen sa = 0)
      ∨ (100 < pp ∨ pp < 0) ∨ (100 < pc ∨ pc < 1)
      ∨ (∃ s, sa = StreamAttr.strval s ∧ s ≠ "NONE") := by
  rcases sa with s | t
  · simp only [listedInvalid, Bool.or_eq_true, decide_eq_true_iff, Bool.not_eq_true',
      decide_eq_false_iff_not]
    constructor
    · rintro ((((((((h | h) | h) | h) | h) | h) | h) | h) | h)
      · exact Or.inl (Or.inl h)
      · exact Or.inl (Or.inr (Or.inl h))
      · exact Or.inl (Or.inr (Or.inr (Or.inl h)))
      · exact Or.inl (Or.inr (Or.inr (Or.inr h)))
      · exact Or.inr (Or.inl (Or.inl h))
      · exact Or.inr (Or.inl (Or.inr h))
      · exact Or.inr (Or.inr (Or.inl (Or.inl h)))
      · exact Or.inr (Or.inr (Or.inl (Or.inr h)))
      · exact Or.inr (Or.inr (Or.inr ⟨s, rfl, h⟩))
    · rintro ((h | h | h | h) | (h | h) | (h | h) | ⟨s2, hse, hsne⟩)
      · exact Or.inl (Or.inl (Or.inl (Or.inl (Or.inl (Or.inl (Or.inl (Or.inl h)))))))
      · exact Or.inl (Or.inl (Or.inl (Or.inl (Or.inl (Or.inl (Or.inl (Or.inr h)))))))
      · exact Or.inl (Or.inl (Or.inl (Or.inl (Or.inl (Or.inl (Or.inr h))))))
      · exact Or.inl (Or.inl (Or.inl (Or.inl (Or.inl (Or.inr h)))))
      · exact Or.inl (Or.inl (Or.inl (Or.inl (Or.inr h))))
      · exact Or.inl (Or.inl (Or.inl (Or.inr h)))
      · exact Or.inl (Or.inl (Or.inr h))
      · exact Or.inl (Or.inr h)
      · injection hse with h3
        exact Or.inr (by rw [h3]; exact hsne)
  · simp only [listedInvalid, Bool.or_eq_true, decide_eq_true_iff]
    constructor
    · rintro ((((((((h | h) | h) | h) | h) | h) | h) | h) | h)
      · exact Or.inl (Or.inl h)
      · exact Or.inl (Or.inr (Or.inl h))
      · exact Or.inl (Or.inr (Or.inr (Or.inl h)))
      · exact Or.inl (Or.inr (Or.inr (Or.inr h)))
      · exact Or.inr (Or.inl (Or.inl h))
      · exact Or.inr (Or.inl (Or.inr h))
      · exact Or.inr (Or.inr (Or.inl (Or.inl h)))
      · exact Or.inr (Or.inr (Or.inl (Or.inr h)))
      · cases h
    · rintro ((h | h | h | h) | (h | h) | (h | h) | ⟨s2, hse, hsne⟩)
      · exact Or.inl (Or.inl (Or.inl (Or.inl (Or.inl (Or.inl (Or.inl (Or.inl h)))))))
      · exact Or.inl (Or.inl (Or.inl (Or.inl (Or.inl (Or.inl (Or.inl (Or.inr h)))))))
      · exact Or.inl (Or.inl (Or.inl (Or.inl (Or.inl (Or.inl (Or.inr h))))))
      · exact Or.inl (Or.inl (Or.inl (Or.inl (Or.inl (Or.inr h)))))
      · exact Or.inl (Or.inl (Or.inl (Or.inl (Or.inr h))))
      · exact Or.inl (Or.inl (Or.inl (Or.inr h)))
      · exact Or.inl (Or.inl (Or.inr h))
      · exact Or.inl (Or.inr h)
      · cases hse

/-- C3 (amended): fish_passage signals the validation (sys.exit) error kind
exactly when one of the listed input conditions holds (wrong-type shapes are
outside a typed embedding); a confluence branch reach missing from the
splitting-attribute table is exactly what makes the confluence-proportion
computation fail, which aborts the traversal as a lookup (IndexError)
runtime error with no partial results; other runtime failures (integer
origin ids, duplicate-enqueue dictionary corruption) can also abort the
call, so the listed conditions are not the only failure modes. -/
theorem fish_C3_amended (dd : List (RId × ℤ)) (ori : List RId) (ft : List (RId × RId))
    (pp pc : ℤ) (sa : StreamAttr RId) (fuel : ℕ) :
    ((∃ m, fish_passage dd ori ft pp pc sa fuel = Except.error (FPErr.invalidInput m))
      ↔ listedInvalid dd ori ft pp pc sa = true)
    ∧ (∀ (rows : List (RId × ℚ)) (q : List RId),
        confluenceProps (StreamAttr.table rows) q = none
          ↔ ∃ u ∈ q, attrLookup rows u = none) := by
  constructor
  · have hiff := listedInvalid_iff dd ori ft pp pc sa
    unfold fish_passage fishChecks
    rcases sa with s | t
    · dsimp only
      by_cases hs : s = "NONE"
      · subst hs
        rw [if_pos rfl]
        by_cases hempty : dd.length = 0 ∨ ori.length = 0 ∨ ft.length = 0 ∨
            saLen (StreamAttr.strval "NONE" : StreamAttr RId) = 0
        · rw [if_pos hempty]
          exact ⟨fun _ => hiff.mpr (Or.inl hempty), fun _ => ⟨_, rfl⟩⟩
        · rw [if_neg hempty]
          by_cases hpass : 100 < pp ∨ pp < 0
          · rw [if_pos hpass]
            exact ⟨fun _ => hiff.mpr (Or.inr (Or.inl hpass)), fun _ => ⟨_, rfl⟩⟩
          · rw [if_neg hpass]
            by_cases hcut : 100 < pc ∨ pc < 1
            · rw [if_pos hcut]
              exact ⟨fun _ => hiff.mpr (Or.inr (Or.inr (Or.inl hcut))), fun _ => ⟨_, rfl⟩⟩
            · rw [if_neg hcut]
              constructor
              · rintro ⟨m, hm⟩
                exact absurd hm (runOrigins_not_invalid dd ft _ _ _ fuel ori m)
              · intro hb
                exfalso
                rcases hiff.mp hb with h | h | h | ⟨s2, hse, hsne⟩
                · exact hempty h
                · exact hpass h
                · exact hcut h
                · injection hse with h3
                  exact hsne h3.symm
      · rw [if_neg hs]
        exact ⟨fun _ => hiff.mpr (Or.inr (Or.inr (Or.inr ⟨s, rfl, hs⟩))), fun _ => ⟨_, rfl⟩⟩
    · dsimp only
      by_cases hempty : dd.length = 0 ∨ ori.length = 0 ∨ ft.length = 0 ∨
          saLen (StreamAttr.table t : StreamAttr RId) = 0
      · rw [if_pos hempty]
        exact ⟨fun _ => hiff.mpr (Or.inl hempty), fun _ => ⟨_, rfl⟩⟩
      · rw [if_neg hempty]
        by_cases hpass : 100 < pp ∨ pp < 0
        · rw [if_pos hpass]
          exact ⟨fun _ => hiff.mpr (Or.inr (Or.inl hpass)), fun _ => ⟨_, rfl⟩⟩
        · rw [if_neg hpass]
          by_cases hcut : 100 < pc ∨ pc < 1
          · rw [if_pos hcut]
            exact ⟨fun _ => hiff.mpr (Or.inr (Or.inr (Or.inl hcut))), fun _ => ⟨_, rfl⟩⟩
          · rw [if_neg hcut]
            constructor
            · rintro ⟨m, hm⟩
              exact absurd hm (runOrigins_not_invalid dd ft _ _ _ fuel ori m)
            · intro hb
              exfalso
              rcases hiff.mp hb with h | h | h | ⟨s2, hse, hsne⟩
              · exact hempty h
              · exact hpass h
              · exact hcut h
              · cases hse
  · intro rows q
    unfold confluenceProps
    dsimp only
    rcases hla : lookupAll rows q with _ | attrs
    · simp only [lookupAll_none_iff rows q] at hla
      exact ⟨fun _ => hla, fun _ => rfl⟩
    · constructor
      · intro h
        cases h
      · intro hex
        rw [(lookupAll_none_iff rows q).mpr hex] at hla
        cases hla

/-- Witness for C3 (amended): empty inputs are among the listed conditions,
and the model indeed signals the validation error kind on them. -/
theorem fish_C3_amended_w :
    ∃ m, fish_passage [] [] [] 0 0 (StreamAttr.strval "NONE") 1
      = Except.error (FPErr.invalidInput m) :=
  (fish_C3_amended [] [] [] 0 0 (StreamAttr.strval "NONE") 1).1.mpr (by decide)

/- ### C10 machinery: runs with no duplicate enqueue -/



theorem singleStep_hist (dd : List (R × ℤ)) (red cutoff : ℚ) (o u : R)
    (st st1 : OState R) (e : Option PErr)
    (h : singleStep dd red cutoff o u st = (st1, e)) : st1.hist = st.hist ++ [u] := by
  unfold singleStep at h
  by_cases hdam : 0 < damCt dd u
  · rw [if_pos hdam] at h
    rcases hg : dictGet (dictSet st.dict u none) o with _ | v
    · rw [hg] at h
      cases h
      rfl
    · rcases v with _ | f
      · rw [hg] at h
        cases h
        rfl
      · rw [hg] at h
        dsimp only at h
        by_cases hcut : cutoff < f * red ^ damCt dd u
        · rw [if_pos hcut] at h
          cases h
          rfl
        · rw [if_neg hcut] at h
          cases h
          rfl
  · rw [if_neg hdam] at h
    rcases hg : dictGet (dictSet st.dict u none) o with _ | v
    · rw [hg] at h
      cases h
      rfl
    · rw [hg] at h
      cases h
      rfl

theorem confStep_hist (dd : List (R × ℤ)) (red cutoff : ℚ) (o : R)
    (st st1 : OState R) (e : Option PErr) (kp : R × ℚ)
    (h : confStep dd red cutoff o st kp = (st1, e)) : st1.hist = st.hist ++ [kp.1] := by
  unfold confStep at h
  by_cases hdam : 0 < damCt dd kp.1
  · rw [if_pos hdam] at h
    rcases hg : dictGet (dictSet st.dict kp.1 none) o with _ | v
    · rw [hg] at h
      cases h
      rfl
    · rcases v with _ | f
      · rw [hg] at h
        cases h
        rfl
      · rw [hg] at h
        dsimp only at h
        by_cases hcut : cutoff < (f * kp.2) * red ^ damCt dd kp.1
        · rw [if_pos hcut] at h
          cases h
          rfl
        · rw [if_neg hcut] at h
          cases h
          rfl
  · rw [if_neg hdam] at h
    rcases hg : dictGet (dictSet st.dict kp.1 none) o with _ | v
    · rw [hg] at h
      cases h
      rfl
    · rcases v with _ | f
      · rw [hg] at h
        cases h
        rfl
      · rw [hg] at h
        dsimp only at h
        by_cases hcut : cutoff < f * kp.2
        · rw [if_pos hcut] at h
          cases h
          rfl
        · rw [if_neg hcut] at h
          cases h
          rfl

theorem confLoop_hist (dd : List (R × ℤ)) (red cutoff : ℚ) (o : R) :
    ∀ (l : List (R × ℚ)) (st st1 : OState R) (e : Option PErr),
      confLoop dd red cutoff o l st = (st1, e) → ∃ ext, st1.hist = st.hist ++ ext := by
  intro l
  induction l with
  | nil =>
    intro st st1 e h
    cases h
    exact ⟨[], by simp⟩
  | cons kp rest ih =>
    intro st st1 e h
    simp only [confLoop] at h
    rcases hcs : confStep dd red cutoff o st kp with ⟨st2, e2⟩
    rw [hcs] at h
    have h2 := confStep_hist dd red cutoff o st st2 e2 kp hcs
    cases e2 with
    | none =>
      rcases ih st2 st1 e h with ⟨ext, hext⟩
      exact ⟨[kp.1] ++ ext, by rw [hext, h2, List.append_assoc]⟩
    | some e3 =>
      cases h
      exact ⟨[kp.1], h2⟩

theorem step_hist (dd : List (R × ℤ)) (ft : List (R × R)) (sa : StreamAttr R)
    (red cutoff : ℚ) (o : R) (st st1 : OState R) (e : Option PErr)
    (h : step dd ft sa red cutoff o st = (st1, e)) : ∃ ext, st1.hist = st.hist ++ ext := by
  unfold step at h
  rcases hq : upstreamOf ft o with _ | ⟨u, rest⟩
  · rw [hq] at h
    cases h
    exact ⟨[], by simp⟩
  · rcases rest with _ | ⟨u2, rest2⟩
    · rw [hq] at h
      dsimp only at h
      rcases hss : singleStep dd red cutoff o u st with ⟨st2, e2⟩
      rw [hss] at h
      have h2 := singleStep_hist dd red cutoff o u st st2 e2 hss
      cases e2 with
      | none =>
        cases h
        exact ⟨[u], h2⟩
      | some e3 =>
        cases h
        exact ⟨[u], h2⟩
    · rw [hq] at h
      dsimp only at h
      rcases hcp : confluenceProps sa (u :: u2 :: rest2) with _ | props
      · rw [hcp] at h
        cases h
        exact ⟨[], by simp⟩
      · rw [hcp] at h
        dsimp only at h
        rcases hcl : confLoop dd red cutoff o ((u :: u2 :: rest2).zip props) st with ⟨st2, e2⟩
        rw [hcl] at h
        rcases confLoop_hist dd red cutoff o _ st st2 e2 hcl with ⟨ext, hext⟩
        cases e2 with
        | none =>
          cases h
          exact ⟨ext, hext⟩
        | some e3 =>
          cases h
          exact ⟨ext, hext⟩

theorem runO_hist (dd : List (R × ℤ)) (ft : List (R × R)) (sa : StreamAttr R)
    (red cutoff : ℚ) :
    ∀ (fuel : ℕ) (st : OState R),
      ∃ ext, ((runO dd ft sa red cutoff fuel st).2).hist = st.hist ++ ext := by
  intro fuel
  induction fuel with
  | zero =>
    intro st
    exact ⟨[], by simp [runO]⟩
  | succ n ih =>
    intro st
    simp only [runO]
    rcases hget : st.ids[st.idx]? with _ | o
    · exact ⟨[], by simp⟩
    · dsimp only
      rcases hst : step dd ft sa red cutoff o st with ⟨st2, e2⟩
      rcases step_hist dd ft sa red cutoff o st st2 e2 hst with ⟨ext, hext⟩
      cases e2 with
      | none =>
        rcases ih st2 with ⟨ext2, hext2⟩
        exact ⟨ext ++ ext2, by rw [hext2, hext, List.append_assoc]⟩
      | some e3 => exact ⟨ext, hext⟩

theorem not_mem_of_nodup_append_singleton (l : List R) (a : R)
    (h : (l ++ [a]).Nodup) : a ∉ l := by
  intro hm
  rcases List.nodup_append.mp h with ⟨_, _, hdisj⟩
  exact hdisj hm (List.mem_singleton_self a)

theorem singleStep_fresh (dd : List (R × ℤ)) (red cutoff : ℚ) (o u : R)
    (st st1 : OState R) (e : Option PErr)
    (hfresh : u ∉ st.hist) (ho : o ∈ st.ids) (hwf : WfState st)
    (h : singleStep dd red cutoff o u st = (st1, e)) :
    e ≠ some PErr.keyError
    ∧ (∀ r ∈ st.ids, dictGet st1.dict r = dictGet st.dict r)
    ∧ (∃ ext, st1.ids = st.ids ++ ext)
    ∧ st1.idx = st.idx
    ∧ (e = none → WfState st1) := by
  have hne : ∀ r ∈ st.ids, r ≠ u := fun r hr he => hfresh (he ▸ hwf.1 r hr)
  have hou : o ≠ u := hne o ho
  have hlookup : dictGet (dictSet st.dict u none) o = dictGet st.dict o := by
    rw [dictGet_set, if_neg hou]
  have hstab : ∀ (w : Option ℚ), ∀ r ∈ st.ids,
      dictGet (dictSet (dictSet st.dict u none) u w) r = dictGet st.dict r := by
    intro w r hr
    rw [dictSet_set, dictGet_set, if_neg (hne r hr)]
  have hgo : dictGet st.dict o ≠ none := hwf.2 o ho
  have hwfrec : ∀ (w : Option ℚ),
      WfState (⟨st.ids ++ [u], st.idx, dictSet (dictSet st.dict u none) u w,
        st.hist ++ [u]⟩ : OState R) := by
    intro w
    constructor
    · intro r hr
      rcases List.mem_append.mp hr with hr | hr
      · exact List.mem_append.mpr (Or.inl (hwf.1 r hr))
      · exact List.mem_append.mpr (Or.inr hr)
    · intro r hr
      rcases List.mem_append.mp hr with hr | hr
      · rw [hstab w r hr]
        exact hwf.2 r hr
      · rw [List.mem_singleton.mp hr, dictSet_set, dictGet_set, if_pos rfl]
        simp
  unfold singleStep at h
  by_cases hdam : 0 < damCt dd u
  · rw [if_pos hdam] at h
    rcases hg : dictGet (dictSet st.dict u none) o with _ | v
    · rw [hlookup] at hg
      exact absurd hg hgo
    · rw [hg] at h
      rcases v with _ | f
      · dsimp only at h
        cases h
        refine ⟨by simp, ?_, ⟨[u], rfl⟩, rfl, fun he => by cases he⟩
        intro r hr
        rw [dictGet_set, if_neg (hne r hr)]
      · dsimp only at h
        by_cases hcut : cutoff < f * red ^ damCt dd u
        · rw [if_pos hcut] at h
          cases h
          exact ⟨by simp, hstab _, ⟨[u], rfl⟩, rfl, fun _ => hwfrec _⟩
        · rw [if_neg hcut] at h
          cases h
          have hids : removeFirst (st.ids ++ [u]) u = st.ids :=
            removeFirst_append_self st.ids u (fun hm => hfresh (hwf.1 u hm))
          refine ⟨by simp, ?_, ⟨[], by rw [hids]; simp⟩, rfl, fun _ => ?_⟩
          · intro r hr
            rw [dictDel_set, dictGet_del_ne _ u r (hne r hr)]
          · constructor
            · intro r hr
              rw [hids] at hr
              exact List.mem_append.mpr (Or.inl (hwf.1 r hr))
            · intro r hr
              rw [hids] at hr
              rw [dictDel_set, dictGet_del_ne _ u r (hne r hr)]
              exact hwf.2 r hr
  · rw [if_neg hdam] at h
    rcases hg : dictGet (dictSet st.dict u none) o with _ | v
    · rw [hlookup] at hg
      exact absurd hg hgo
    · rw [hg] at h
      cases h
      exact ⟨by simp, hstab _, ⟨[u], rfl⟩, rfl, fun _ => hwfrec _⟩

theorem confStep_fresh (dd : List (R × ℤ)) (red cutoff : ℚ) (o : R)
    (st st1 : OState R) (e : Option PErr) (kp : R × ℚ)
    (hfresh : kp.1 ∉ st.hist) (ho : o ∈ st.ids) (hwf : WfState st)
    (h : confStep dd red cutoff o st kp = (st1, e)) :
    e ≠ some PErr.keyError
    ∧ (∀ r ∈ st.ids, dictGet st1.dict r = dictGet st.dict r)
    ∧ (∃ ext, st1.ids = st.ids ++ ext)
    ∧ st1.idx = st.idx
    ∧ (e = none → WfState st1) := by
  have hne : ∀ r ∈ st.ids, r ≠ kp.1 := fun r hr he => hfresh (he ▸ hwf.1 r hr)
  have hou : o ≠ kp.1 := hne o ho
  have hlookup : dictGet (dictSet st.dict kp.1 none) o = dictGet st.dict o := by
    rw [dictGet_set, if_neg hou]
  have hstab : ∀ (w : Option ℚ), ∀ r ∈ st.ids,
      dictGet (dictSet (dictSet st.dict kp.1 none) kp.1 w) r = dictGet st.dict r := by
    intro w r hr
    rw [dictSet_set, dictGet_set, if_neg (hne r hr)]
  have hgo : dictGet st.dict o ≠ none := hwf.2 o ho
  have hwfrec : ∀ (w : Option ℚ),
      WfState (⟨st.ids ++ [kp.1], st.idx, dictSet (dictSet st.dict kp.1 none) kp.1 w,
        st.hist ++ [kp.1]⟩ : OState R) := by
    intro w
    constructor
    · intro r hr
      rcases List.mem_append.mp hr with hr | hr
      · exact List.mem_append.mpr (Or.inl (hwf.1 r hr))
      · exact List.mem_append.mpr (Or.inr hr)
    · intro r hr
      rcases List.mem_append.mp hr with hr | hr
      · rw [hstab w r hr]
        exact hwf.2 r hr
      · rw [List.mem_singleton.mp hr, dictSet_set, dictGet_set, if_pos rfl]
        simp
  have hids : removeFirst (st.ids ++ [kp.1]) kp.1 = st.ids :=
    removeFirst_append_self st.ids kp.1 (fun hm => hfresh (hwf.1 kp.1 hm))
  have hwfdel : WfState (⟨removeFirst (st.ids ++ [kp.1]) kp.1, st.idx,
      dictDel (dictSet st.dict kp.1 none) kp.1, st.hist ++ [kp.1]⟩ : OState R) := by
    constructor
    · intro r hr
      rw [hids] at hr
      exact List.mem_append.mpr (Or.inl (hwf.1 r hr))
    · intro r hr
      rw [hids] at hr
      rw [dictDel_set, dictGet_del_ne _ kp.1 r (hne r hr)]
      exact hwf.2 r hr
  have hstabdel : ∀ r ∈ st.ids,
      dictGet (dictDel (dictSet st.dict kp.1 none) kp.1) r = dictGet st.dict r := by
    intro r hr
    rw [dictDel_set, dictGet_del_ne _ kp.1 r (hne r hr)]
  unfold confStep at h
  by_cases hdam : 0 < damCt dd kp.1
  · rw [if_pos hdam] at h
    rcases hg : dictGet (dictSet st.dict kp.1 none) o with _ | v
    · rw [hlookup] at hg
      exact absurd hg hgo
    · rw [hg] at h
      rcases v with _ | f
      · dsimp only at h
        cases h
        refine ⟨by simp, ?_, ⟨[kp.1], rfl⟩, rfl, fun he => by cases he⟩
        intro r hr
        rw [dictGet_set, if_neg (hne r hr)]
      · dsimp only at h
        by_cases hcut : cutoff < (f * kp.2) * red ^ damCt dd kp.1
        · rw [if_pos hcut] at h
          cases h
          exact ⟨by simp, hstab _, ⟨[kp.1], rfl⟩, rfl, fun _ => hwfrec _⟩
        · rw [if_neg hcut] at h
          cases h
          exact ⟨by simp, hstabdel, ⟨[], by rw [hids]; simp⟩, rfl, fun _ => hwfdel⟩
  · rw [if_neg hdam] at h
    rcases hg : dictGet (dictSet st.dict kp.1 none) o with _ | v
    · rw [hlookup] at hg
      exact absurd hg hgo
    · rw [hg] at h
      rcases v with _ | f
      · dsimp only at h
        cases h
        refine ⟨by simp, ?_, ⟨[kp.1], rfl⟩, rfl, fun he => by cases he⟩
        intro r hr
        rw [dictGet_set, if_neg (hne r hr)]
      · dsimp only at h
        by_cases hcut : cutoff < f * kp.2
        · rw [if_pos hcut] at h
          cases h
          exact ⟨by simp, hstab _, ⟨[kp.1], rfl⟩, rfl, fun _ => hwfrec _⟩
        · rw [if_neg hcut] at h
          cases h
          exact ⟨by simp, hstabdel, ⟨[], by rw [hids]; simp⟩, rfl, fun _ => hwfdel⟩

theorem confLoop_fresh (dd : List (R × ℤ)) (red cutoff : ℚ) (o : R) :
    ∀ (l : List (R × ℚ)) (st st1 : OState R) (e : Option PErr),
      WfState st → o ∈ st.ids → st1.hist.Nodup →
      confLoop dd red cutoff o l st = (st1, e) →
      e ≠ some PErr.keyError
      ∧ (∀ r ∈ st.ids, dictGet st1.dict r = dictGet st.dict r)
      ∧ (∃ ext, st1.ids = st.ids ++ ext)
      ∧ st1.idx = st.idx
      ∧ (e = none → WfState st1) := by
  intro l
  induction l with
  | nil =>
    intro st st1 e hwf ho hnodup h
    cases h
    exact ⟨by simp, fun r hr => rfl, ⟨[], by simp⟩, rfl, fun _ => hwf⟩
  | cons kp rest ih =>
    intro st st1 e hwf ho hnodup h
    simp only [confLoop] at h
    rcases hcs : confStep dd red cutoff o st kp with ⟨st2, e2⟩
    rw [hcs] at h
    have hh2 := confStep_hist dd red cutoff o st st2 e2 kp hcs
    cases e2 with
    | some e3 =>
      cases h
      have hfresh : kp.1 ∉ st.hist := by
        rw [hh2] at hnodup
        exact not_mem_of_nodup_append_singleton _ _ hnodup
      have hcf := confStep_fresh dd red cutoff o st st1 (some e3) kp hfresh ho hwf hcs
      exact ⟨hcf.1, hcf.2.1, hcf.2.2.1, hcf.2.2.2.1, fun he => by cases he⟩
    | none =>
      rcases confLoop_hist dd red cutoff o rest st2 st1 e h with ⟨ext, hext⟩
      have hnodup2 : st2.hist.Nodup := by
        rw [hext] at hnodup
        exact hnodup.of_append_left
      have hfresh : kp.1 ∉ st.hist := by
        rw [hh2] at hnodup2
        exact not_mem_of_nodup_append_singleton _ _ hnodup2
      have hcf := confStep_fresh dd red cutoff o st st2 none kp hfresh ho hwf hcs
      have hwf2 : WfState st2 := hcf.2.2.2.2 rfl
      rcases hcf.2.2.1 with ⟨ext1, hids1⟩
      have ho2 : o ∈ st2.ids := by
        rw [hids1]
        exact List.mem_append.mpr (Or.inl ho)
      have hrec := ih st2 st1 e hwf2 ho2 hnodup h
      refine ⟨hrec.1, ?_, ?_, ?_, hrec.2.2.2.2⟩
      · intro r hr
        have hr2 : r ∈ st2.ids := by
          rw [hids1]
          exact List.mem_append.mpr (Or.inl hr)
        rw [hrec.2.1 r hr2, hcf.2.1 r hr]
      · rcases hrec.2.2.1 with ⟨ext2, hids2⟩
        exact ⟨ext1 ++ ext2, by rw [hids2, hids1, List.append_assoc]⟩
      · rw [hrec.2.2.2.1, hcf.2.2.2.1]

theorem step_fresh (dd : List (R × ℤ)) (ft : List (R × R)) (sa : StreamAttr R)
    (red cutoff : ℚ) (o : R) (st st1 : OState R) (e : Option PErr)
    (hwf : WfState st) (ho : o ∈ st.ids) (hnodup : st1.hist.Nodup)
    (h : step dd ft sa red cutoff o st = (st1, e)) :
    e ≠ some PErr.keyError
    ∧ (∀ r ∈ st.ids, dictGet st1.dict r = dictGet st.dict r)
    ∧ (∃ ext, st1.ids = st.ids ++ ext)
    ∧ (e = none → WfState st1)
    ∧ (e ≠ none → st1.idx = st.idx) := by
  unfold step at h
  rcases hq : upstreamOf ft o with _ | ⟨u, rest⟩
  · rw [hq] at h
    cases h
    exact ⟨by simp, fun r hr => rfl, ⟨[], by simp⟩, fun _ => ⟨hwf.1, hwf.2⟩,
      fun hne => absurd rfl hne⟩
  · rcases rest with _ | ⟨u2, rest2⟩
    · rw [hq] at h
      dsimp only at h
      rcases hss : singleStep dd red cutoff o u st with ⟨st2, e2⟩
      rw [hss] at h
      have hh2 := singleStep_hist dd red cutoff o u st st2 e2 hss
      cases e2 with
      | none =>
        cases h
        have hnodup2 : st2.hist.Nodup := hnodup
        rw [hh2] at hnodup2
        have hfresh : u ∉ st.hist := not_mem_of_nodup_append_singleton _ _ hnodup2
        have hsf := singleStep_fresh dd red cutoff o u st st2 none hfresh ho hwf hss
        have hwf2 : WfState st2 := hsf.2.2.2.2 rfl
        exact ⟨by simp, hsf.2.1, hsf.2.2.1, fun _ => ⟨hwf2.1, hwf2.2⟩,
          fun hne => absurd rfl hne⟩
      | some e3 =>
        cases h
        have hnodup2 : st1.hist.Nodup := hnodup
        rw [hh2] at hnodup2
        have hfresh : u ∉ st.hist := not_mem_of_nodup_append_singleton _ _ hnodup2
        have hsf := singleStep_fresh dd red cutoff o u st st1 (some e3) hfresh ho hwf hss
        exact ⟨hsf.1, hsf.2.1, hsf.2.2.1, fun he => absurd he (Option.some_ne_none e3),
          fun _ => hsf.2.2.2.1⟩
    · rw [hq] at h
      dsimp only at h
      rcases hcp : confluenceProps sa (u :: u2 :: rest2) with _ | props
      · rw [hcp] at h
        cases h
        exact ⟨by simp, fun r hr => rfl, ⟨[], by simp⟩,
          fun he => absurd he (Option.some_ne_none PErr.indexError), fun _ => rfl⟩
      · rw [hcp] at h
        dsimp only at h
        rcases hcl : confLoop dd red cutoff o ((u :: u2 :: rest2).zip props) st with ⟨st2, e2⟩
        rw [hcl] at h
        cases e2 with
        | none =>
          cases h
          have hclf := confLoop_fresh dd red cutoff o _ st st2 none hwf ho hnodup hcl
          have hwf2 : WfState st2 := hclf.2.2.2.2 rfl
          exact ⟨by simp, hclf.2.1, hclf.2.2.1, fun _ => ⟨hwf2.1, hwf2.2⟩,
            fun hne => absurd rfl hne⟩
        | some e3 =>
          cases h
          have hclf := confLoop_fresh dd red cutoff o _ st st1 (some e3) hwf ho hnodup hcl
          exact ⟨hclf.1, hclf.2.1, hclf.2.2.1, fun he => absurd he (Option.some_ne_none e3),
            fun _ => hclf.2.2.2.1⟩

theorem runO_add_fuelOut (dd : List (R × ℤ)) (ft : List (R × R)) (sa : StreamAttr R)
    (red cutoff : ℚ) :
    ∀ (a b : ℕ) (st : OState R),
      (runO dd ft sa red cutoff a st).1 = ROut.fuelOut →
      runO dd ft sa red cutoff (a + b) st =
        runO dd ft sa red cutoff b ((runO dd ft sa red cutoff a st).2) := by
  intro a
  induction a with
  | zero =>
    intro b st _
    rw [Nat.zero_add]
    rfl
  | succ a ih =>
    intro b st hf
    have hrw : a + 1 + b = (a + b) + 1 := by omega
    rw [hrw]
    simp only [runO] at hf ⊢
    rcases hget : st.ids[st.idx]? with _ | o
    · rw [hget] at hf
      cases hf
    · rw [hget] at hf
      dsimp only at hf ⊢
      rcases hst : step dd ft sa red cutoff o st with ⟨st2, e2⟩
      rw [hst] at hf
      cases e2 with
      | none => exact ih b st2 hf
      | some e3 =>
        dsimp only at hf
        cases hf

theorem runO_add_halt (dd : List (R × ℤ)) (ft : List (R × R)) (sa : StreamAttr R)
    (red cutoff : ℚ) :
    ∀ (a b : ℕ) (st : OState R),
      (runO dd ft sa red cutoff a st).1 ≠ ROut.fuelOut →
      runO dd ft sa red cutoff (a + b) st = runO dd ft sa red cutoff a st := by
  intro a
  induction a with
  | zero =>
    intro b st hf
    exact absurd rfl hf
  | succ a ih =>
    intro b st hf
    have hrw : a + 1 + b = (a + b) + 1 := by omega
    rw [hrw]
    simp only [runO] at hf ⊢
    rcases hget : st.ids[st.idx]? with _ | o
    · rfl
    · rw [hget] at hf
      dsimp only at hf ⊢
      rcases hst : step dd ft sa red cutoff o st with ⟨st2, e2⟩
      rw [hst] at hf
      cases e2 with
      | none => exact ih b st2 hf
      | some e3 => rfl

theorem runO_hist_mono (dd : List (R × ℤ)) (ft : List (R × R)) (sa : StreamAttr R)
    (red cutoff : ℚ) (n m : ℕ) (st : OState R) (hnm : n ≤ m) :
    ∃ ext, ((runO dd ft sa red cutoff m st).2).hist
      = ((runO dd ft sa red cutoff n st).2).hist ++ ext := by
  have hm : m = n + (m - n) := by omega
  by_cases hf : (runO dd ft sa red cutoff n st).1 = ROut.fuelOut
  · rw [hm, runO_add_fuelOut dd ft sa red cutoff n (m - n) st hf]
    exact runO_hist dd ft sa red cutoff (m - n) _
  · rw [hm, runO_add_halt dd ft sa red cutoff n (m - n) st hf]
    exact ⟨[], by simp⟩

theorem runO_master (dd : List (R × ℤ)) (ft : List (R × R)) (sa : StreamAttr R)
    (red cutoff : ℚ) :
    ∀ (F : ℕ) (st : OState R),
      WfState st →
      ((runO dd ft sa red cutoff F st).2).hist.Nodup →
      (runO dd ft sa red cutoff F st).1 ≠ ROut.err PErr.keyError
      ∧ (∀ r ∈ st.ids,
          dictGet ((runO dd ft sa red cutoff F st).2).dict r = dictGet st.dict r)
      ∧ (∃ ext, ((runO dd ft sa red cutoff F st).2).ids = st.ids ++ ext)
      ∧ (∀ r ∈ takePart ((runO dd ft sa red cutoff F st).2),
          dictGet ((runO dd ft sa red cutoff F st).2).dict r ≠ none)
      ∧ (WfState ((runO dd ft sa red cutoff F st).2)
          ∨ ∃ e2, (runO dd ft sa red cutoff F st).1 = ROut.err e2) := by
  intro F
  induction F with
  | zero =>
    intro st hwf _
    simp only [runO]
    refine ⟨by simp, by simp, ⟨[], by simp⟩, fun r hr => ?_, Or.inl hwf⟩
    exact hwf.2 r (List.take_subset _ _ hr)
  | succ n ih =>
    intro st hwf hnodup
    simp only [runO] at hnodup ⊢
    rcases hget : st.ids[st.idx]? with _ | o
    · rw [hget] at hnodup
      refine ⟨by simp, by simp, ⟨[], by simp⟩, fun r hr => ?_, Or.inl hwf⟩
      exact hwf.2 r (List.take_subset _ _ hr)
    · rw [hget] at hnodup
      dsimp only at hnodup ⊢
      have ho : o ∈ st.ids := List.getElem?_mem hget
      have hidx : st.idx < st.ids.length := (List.getElem?_eq_some.mp hget).1
      rcases hst : step dd ft sa red cutoff o st with ⟨st2, e2⟩
      rw [hst] at hnodup
      cases e2 with
      | none =>
        have hnodup2 : st2.hist.Nodup := by
          rcases runO_hist dd ft sa red cutoff n st2 with ⟨ext, hext⟩
          rw [hext] at hnodup
          exact hnodup.of_append_left
        have hsf := step_fresh dd ft sa red cutoff o st st2 none hwf ho hnodup2 hst
        have hwf2 : WfState st2 := hsf.2.2.2.1 rfl
        have hrec := ih st2 hwf2 hnodup
        refine ⟨hrec.1, ?_, ?_, hrec.2.2.2.1, hrec.2.2.2.2⟩
        · intro r hr
          have hr2 : r ∈ st2.ids := by
            rcases hsf.2.2.1 with ⟨ext1, h1⟩
            rw [h1]
            exact List.mem_append.mpr (Or.inl hr)
          rw [hrec.2.1 r hr2, hsf.2.1 r hr]
        · rcases hsf.2.2.1 with ⟨e1, h1⟩
          rcases hrec.2.2.1 with ⟨e2x, h2x⟩
          exact ⟨e1 ++ e2x, by rw [h2x, h1, List.append_assoc]⟩
      | some e3 =>
        dsimp only at hnodup ⊢
        have hsf := step_fresh dd ft sa red cutoff o st st2 (some e3) hwf ho hnodup hst
        have hidx2 : st2.idx = st.idx := hsf.2.2.2.2 (Option.some_ne_none e3)
        rcases hsf.2.2.1 with ⟨ext1, h1⟩
        refine ⟨?_, hsf.2.1, ⟨ext1, h1⟩, fun r hr => ?_, Or.inr ⟨e3, rfl⟩⟩
        · intro hh
          injection hh with hh2
          exact hsf.1 (by rw [hh2])
        · have hr2 : r ∈ st.ids := by
            have : takePart st2 = st.ids.take st.idx := by
              unfold takePart
              rw [hidx2, h1, List.take_append_of_le_length (Nat.le_of_lt hidx)]
            rw [this] at hr
            exact List.take_subset _ _ hr
          rw [hsf.2.1 r hr2]
          exact hwf.2 r hr2

/-- C10: in a traversal in which no reach is ever appended to the worklist
twice (the ghost history of appends is duplicate-free), the o_dict[o]
lookups of the loop body never miss their key — the run cannot abort with
KeyError — and an entry recorded for an already-dequeued reach is present
and is never deleted or changed by the rest of the run. -/
theorem fish_C10 (dd : List (R × ℤ)) (ft : List (R × R)) (sa : StreamAttr R)
    (red cutoff : ℚ) (origin : R) (F : ℕ)
    (H : ((runO dd ft sa red cutoff F (initOState dd red origin)).2).hist.Nodup) :
    (runO dd ft sa red cutoff F (initOState dd red origin)).1 ≠ ROut.err PErr.keyError
    ∧ ∀ n m : ℕ, n ≤ m → m ≤ F →
        ∀ r ∈ takePart ((runO dd ft sa red cutoff n (initOState dd red origin)).2),
          dictGet ((runO dd ft sa red cutoff m (initOState dd red origin)).2).dict r
            = dictGet ((runO dd ft sa red cutoff n (initOState dd red origin)).2).dict r
          ∧ dictGet ((runO dd ft sa red cutoff n (initOState dd red origin)).2).dict r
            ≠ none := by
  have hwf0 : WfState (initOState dd red origin) := by
    constructor
    · intro r hr
      simp only [initOState] at hr ⊢
      exact hr
    · intro r hr
      simp only [initOState] at hr
      rw [List.mem_singleton.mp hr]
      rw [initOState_dict]
      simp [dictGet]
  have hnodup : ∀ n, n ≤ F →
      ((runO dd ft sa red cutoff n (initOState dd red origin)).2).hist.Nodup := by
    intro n hn
    rcases runO_hist_mono dd ft sa red cutoff n F (initOState dd red origin) hn with ⟨ext, hext⟩
    rw [hext] at H
    exact H.of_append_left
  constructor
  · exact (runO_master dd ft sa red cutoff F (initOState dd red origin) hwf0 H).1
  · intro n m hnm hmF r hr
    have hmn := runO_master dd ft sa red cutoff n (initOState dd red origin) hwf0
      (hnodup n (Nat.le_trans hnm hmF))
    have hpp := hmn.2.2.2.1 r hr
    by_cases hf : (runO dd ft sa red cutoff n (initOState dd red origin)).1 = ROut.fuelOut
    · have hmeq : m = n + (m - n) := by omega
      have hdecomp := runO_add_fuelOut dd ft sa red cutoff n (m - n) (initOState dd red origin) hf
      have hwfn : WfState ((runO dd ft sa red cutoff n (initOState dd red origin)).2) := by
        rcases hmn.2.2.2.2 with hh | ⟨e2, he2⟩
        · exact hh
        · rw [he2] at hf
          cases hf
      have hnodupm : ((runO dd ft sa red cutoff (m - n)
          ((runO dd ft sa red cutoff n (initOState dd red origin)).2)).2).hist.Nodup := by
        rw [← hdecomp, ← hmeq]
        exact hnodup m hmF
      have hmast := runO_master dd ft sa red cutoff (m - n)
        ((runO dd ft sa red cutoff n (initOState dd red origin)).2) hwfn hnodupm
      refine ⟨?_, hpp⟩
      rw [hmeq, hdecomp]
      exact hmast.2.1 r (List.take_subset _ _ hr)
    · have hmeq : m = n + (m - n) := by omega
      rw [hmeq, runO_add_halt dd ft sa red cutoff n (m - n) (initOState dd red origin) hf]
      exact ⟨rfl, hpp⟩

/-- Witness for C10: on dams {A}, edges {(B, A)}, origin A with fuel 5, the
run's append history [A, B] is duplicate-free and the run does not abort
with KeyError. -/
theorem fish_C10_w :
    (runO [("A", (1 : ℤ))] [("B", "A")] (StreamAttr.strval "NONE") (1 / 2) 30 5
      (initOState [("A", (1 : ℤ))] (1 / 2) "A")).1 ≠ ROut.err PErr.keyError :=
  (fish_C10 [("A", (1 : ℤ))] [("B", "A")] (StreamAttr.strval "NONE") (1 / 2) 30 "A" 5
    (by with_unfolding_all decide)).1

end FishPass
